import Mathlib

/-!
# Verification of the protoc-gen-go-jsonschema schema synthesis engine

This file is a shallow embedding of the core logic of the
`protoc-gen-go-jsonschema` plugin (package `plugin`):

* the selection engine (`getMessages` / `getMessagesWithForce`), which
  computes the closed set of message types that must emit a schema;
* the type mapper (`getKindTypeName`) and the schema-config builders
  (`getScalarSchemaConfig`, `getArraySchemaConfig`, `getMapSchemaConfig`,
  `getMessageSchemaConfig`);
* the runtime semantics of the generated code
  (`<Msg>_JsonSchema_WithDefs` and the `JsonSchema()` entry point),
  modelled by the interpreter `synthStep` / `jsonSchemaRoot`.

Modelling conventions:

* Protocol-buffer descriptors are read-only inputs in the source
  (`protoreflect` / `protogen`); they are embedded as plain structures.
  The pointer graph between messages (`field.Message`, nested messages)
  is represented by fully-qualified names resolved against an
  environment `env : List Message`, mirroring the fact that the Go code
  navigates pointers between uniquely-named descriptors.
* `protoreflect.Kind` is an integer type in Go; it is embedded as `Int`
  with the numeric values used by `protoreflect`, so that out-of-range
  kind values are expressible exactly as in the source.
* Go maps (the definitions registry, the `Properties` map, the oneof
  group map) are embedded as association lists with
  replace-or-append assignment, which models Go map assignment.
* Recursive traversals are given fuel and return `Option` results;
  `none` arises only from fuel exhaustion or from a message reference
  that does not resolve in `env` (in the source the latter would emit a
  call to a function that does not exist, i.e. the generated code would
  not compile).
* Floating-point option values (`minimum`/`maximum`) and the purely
  numeric count constraints are not modelled; no claim refers to them.
  Comment extraction (`getTitleAndDescription`) is likewise treated as
  an input: each descriptor carries its already-extracted title and
  description.
-/

set_option autoImplicit false

/-! ## JSON Schema type constants (source: the `js*` constant block) -/

def jsArray : String := "array"
def jsBoolean : String := "boolean"
def jsInteger : String := "integer"
def jsNull : String := "null"
def jsNumber : String := "number"
def jsObject : String := "object"
def jsString : String := "string"

/-! ## protoreflect field kinds

`protoreflect.Kind` is a Go integer type; these are its actual values. -/

def doubleKind : Int := 1
def floatKind : Int := 2
def int64Kind : Int := 3
def uint64Kind : Int := 4
def int32Kind : Int := 5
def fixed64Kind : Int := 6
def fixed32Kind : Int := 7
def boolKind : Int := 8
def stringKind : Int := 9
def groupKind : Int := 10
def messageKind : Int := 11
def bytesKind : Int := 12
def uint32Kind : Int := 13
def enumKind : Int := 14
def sfixed32Kind : Int := 15
def sfixed64Kind : Int := 16
def sint32Kind : Int := 17
def sint64Kind : Int := 18

/-- The closed set of field kinds understood by the type mapper
(every declared `protoreflect.Kind` value). -/
def closedKinds : List Int :=
  [doubleKind, floatKind, int64Kind, uint64Kind, int32Kind, fixed64Kind,
   fixed32Kind, boolKind, stringKind, groupKind, messageKind, bytesKind,
   uint32Kind, enumKind, sfixed32Kind, sfixed64Kind, sint32Kind, sint64Kind]

/-! ## Field-level JSON-schema options (external `optionsPb` overlay)

Only the option fields read by the modelled code paths are embedded.
A `none` at the descriptor level models `getFieldJsonSchemaOptions`
returning `nil`; the `get*` helpers model Go's nil-receiver getters
returning zero values. -/

structure FieldOpts where
  ignore : Bool
  title : String
  description : String
  format : String
  pattern : String
  contentEncoding : String
deriving Repr, DecidableEq

def getIgnore : Option FieldOpts → Bool
  | none => false
  | some o => o.ignore

def getTitleOpt : Option FieldOpts → String
  | none => ""
  | some o => o.title

def getDescriptionOpt : Option FieldOpts → String
  | none => ""
  | some o => o.description

def getFormatOpt : Option FieldOpts → String
  | none => ""
  | some o => o.format

def getPatternOpt : Option FieldOpts → String
  | none => ""
  | some o => o.pattern

def getContentEncodingOpt : Option FieldOpts → String
  | none => ""
  | some o => o.contentEncoding

/-! ## Field and message descriptors (external, read-only) -/

/-- A field descriptor: the parts of `protogen.Field` /
`protoreflect.FieldDescriptor` read by the plugin.  `message` is the
fully-qualified name of `field.Message` (the referenced message for
message-kind fields, the synthetic map-entry message for map fields);
`jsonName` carries the `json_name` option, present in the descriptor but
deliberately unused by `getFieldName`. -/
structure FieldD where
  name : String
  jsonName : String
  number : Nat
  kind : Int
  isList : Bool
  isMap : Bool
  hasOptionalKeyword : Bool
  oneofName : Option String
  oneofSynthetic : Bool
  message : Option String
  mapKeyKind : Int
  mapValueKind : Int
  enumValues : List Int
  mapValueEnumValues : List Int
  title : String
  description : String
  opts : Option FieldOpts
deriving Repr, DecidableEq

/-- A message descriptor: the parts of `protogen.Message` read by the
plugin.  `genOpt` is the message-level `generate` option
(`getMessageJsonSchemaOptions`; `none` = no options attached);
`nested` lists the fully-qualified names of the directly nested
messages (`message.Messages`). -/
structure Message where
  fullName : String
  isMapEntry : Bool
  genOpt : Option Bool
  title : String
  description : String
  fields : List FieldD
  nested : List String
deriving Repr, DecidableEq

/-- Resolve a fully-qualified name against the descriptor environment
(models following a `*protogen.Message` pointer). -/
def lookupMsg (env : List Message) (name : String) : Option Message :=
  env.find? (fun m => m.fullName == name)

/-! ## Type mapping utilities -/

/-- Source: `getFieldName`.  Returns the proto field name, not the JSON
name. -/
def getFieldName (f : FieldD) : String :=
  f.name

/-- Source: `getKindTypeName`.  Maps a protobuf field kind to the JSON
Schema type name; the branch order mirrors the Go switch. -/
def getKindTypeName (kind : Int) : Except String String :=
  if kind = boolKind then Except.ok jsBoolean
  else if kind = enumKind then Except.ok jsInteger
  else if kind = int32Kind ∨ kind = sint32Kind ∨ kind = uint32Kind ∨
          kind = fixed32Kind ∨ kind = sfixed32Kind then Except.ok jsInteger
  else if kind = int64Kind ∨ kind = sint64Kind ∨ kind = uint64Kind ∨
          kind = fixed64Kind ∨ kind = sfixed64Kind then Except.ok jsInteger
  else if kind = floatKind ∨ kind = doubleKind then Except.ok jsNumber
  else if kind = stringKind then Except.ok jsString
  else if kind = bytesKind then Except.ok jsString
  else if kind = messageKind then Except.ok jsObject
  else if kind = groupKind then Except.ok jsObject
  else Except.error ("unsupported type: " ++ toString kind)

/-- The callers of `getKindTypeName` all discard the error component
(`kindTypeName, _ := sg.getKindTypeName(...)`); with Go's
multiple-return convention the string result is `""` in the error case.
This helper is exactly that calling convention. -/
def kindTypeNameOrEmpty (kind : Int) : String :=
  match getKindTypeName kind with
  | Except.ok s => s
  | Except.error _ => ""

/-! ## Field schema configs (source: `schemaFieldConfig`)

The Go struct is recursive through `nested`, so it is embedded as an
inductive type with accessor functions.  `messageRef`/string fields use
`none`/`""` for Go zero values. -/

inductive SchemaFieldConfig where
  | mk (fieldName title description typeName format pattern propertyNamesPattern : String)
      (enumValues : List Int) (isBytes : Bool)
      (messageRef : Option String)
      (nested : Option SchemaFieldConfig)
deriving Repr

def SchemaFieldConfig.fieldName : SchemaFieldConfig → String
  | .mk v _ _ _ _ _ _ _ _ _ _ => v

def SchemaFieldConfig.title : SchemaFieldConfig → String
  | .mk _ v _ _ _ _ _ _ _ _ _ => v

def SchemaFieldConfig.description : SchemaFieldConfig → String
  | .mk _ _ v _ _ _ _ _ _ _ _ => v

def SchemaFieldConfig.typeName : SchemaFieldConfig → String
  | .mk _ _ _ v _ _ _ _ _ _ _ => v

def SchemaFieldConfig.format : SchemaFieldConfig → String
  | .mk _ _ _ _ v _ _ _ _ _ _ => v

def SchemaFieldConfig.pattern : SchemaFieldConfig → String
  | .mk _ _ _ _ _ v _ _ _ _ _ => v

def SchemaFieldConfig.propertyNamesPattern : SchemaFieldConfig → String
  | .mk _ _ _ _ _ _ v _ _ _ _ => v

def SchemaFieldConfig.enumValues : SchemaFieldConfig → List Int
  | .mk _ _ _ _ _ _ _ v _ _ _ => v

def SchemaFieldConfig.isBytes : SchemaFieldConfig → Bool
  | .mk _ _ _ _ _ _ _ _ v _ _ => v

def SchemaFieldConfig.messageRef : SchemaFieldConfig → Option String
  | .mk _ _ _ _ _ _ _ _ _ v _ => v

def SchemaFieldConfig.nested : SchemaFieldConfig → Option SchemaFieldConfig
  | .mk _ _ _ _ _ _ _ _ _ _ v => v

/-- `schemaFieldConfig{typeName: t}` -/
def cfgTyped (typeName : String) : SchemaFieldConfig :=
  SchemaFieldConfig.mk "" "" "" typeName "" "" "" [] false none none

/-- `schemaFieldConfig{typeName: t, enumValues: vs}` -/
def cfgTypedEnum (typeName : String) (enumValues : List Int) : SchemaFieldConfig :=
  SchemaFieldConfig.mk "" "" "" typeName "" "" "" enumValues false none none

/-- `schemaFieldConfig{typeName: t, isBytes: true}` -/
def cfgTypedBytes (typeName : String) : SchemaFieldConfig :=
  SchemaFieldConfig.mk "" "" "" typeName "" "" "" [] true none none

/-- Source: `getMessageSchemaConfig` — returns only a reference to the
referenced message's schema-builder function.  `referenceName` merely
formats the callee's name from the message's name, so the reference is
identified here by the referenced message's fully-qualified name. -/
def getMessageSchemaConfig (msgName : String) : SchemaFieldConfig :=
  SchemaFieldConfig.mk "" "" "" "" "" "" "" [] false (some msgName) none

/-- Source: `getScalarSchemaConfig` (singular fields).  For message
fields the config returned by `getMessageSchemaConfig` is merged in,
overwriting `typeName`/`format`/`pattern`/`messageRef`/`nested` and
inheriting the description when the field has none. -/
def getScalarSchemaConfig (f : FieldD) (title description : String) : SchemaFieldConfig :=
  let kindTypeName := kindTypeNameOrEmpty f.kind
  if f.kind = messageKind then
    match f.message with
    | some depName =>
      let nestedCfg := getMessageSchemaConfig depName
      SchemaFieldConfig.mk (getFieldName f) title
        (if description = "" ∧ nestedCfg.description ≠ "" then nestedCfg.description else description)
        nestedCfg.typeName nestedCfg.format nestedCfg.pattern "" [] false
        nestedCfg.messageRef nestedCfg.nested
    | none =>
      -- unreachable for well-formed descriptors: a message-kind field
      -- always carries its referenced message
      SchemaFieldConfig.mk (getFieldName f) title description kindTypeName "" "" "" [] false none none
  else if f.kind = enumKind then
    SchemaFieldConfig.mk (getFieldName f) title description kindTypeName "" "" "" f.enumValues false none none
  else if f.kind = bytesKind then
    SchemaFieldConfig.mk (getFieldName f) title description kindTypeName "" "" "" [] true none none
  else
    SchemaFieldConfig.mk (getFieldName f) title description kindTypeName "" "" "" [] false none none

/-- Source: `getArraySchemaConfig` (repeated fields): container type
`"array"`, with a nested config for the element type. -/
def getArraySchemaConfig (f : FieldD) (title description : String) : SchemaFieldConfig :=
  let kindTypeName := kindTypeNameOrEmpty f.kind
  let nested : Option SchemaFieldConfig :=
    if f.kind = messageKind then
      match f.message with
      | some depName => some (getMessageSchemaConfig depName)
      | none => none
    else if f.kind = enumKind then some (cfgTypedEnum kindTypeName f.enumValues)
    else if f.kind = bytesKind then some (cfgTypedBytes kindTypeName)
    else some (cfgTyped kindTypeName)
  SchemaFieldConfig.mk (getFieldName f) title description jsArray "" "" "" [] false none nested

/-- Source: the key-validation switch in `getMapSchemaConfig`:
integer keys get a numeric-string pattern, boolean keys a
`true|false` pattern, any other key kind none. -/
def mapKeyPattern (keyKind : Int) : String :=
  if keyKind = int32Kind ∨ keyKind = sint32Kind ∨ keyKind = uint32Kind ∨
     keyKind = fixed32Kind ∨ keyKind = sfixed32Kind ∨
     keyKind = int64Kind ∨ keyKind = sint64Kind ∨ keyKind = uint64Kind ∨
     keyKind = fixed64Kind ∨ keyKind = sfixed64Kind then "^-?[0-9]+$"
  else if keyKind = boolKind then "^(true|false)$"
  else ""

/-- Source: the value-message search in `getMapSchemaConfig`: scan the
synthetic map-entry message's fields for field number 2 and take its
message. -/
def mapValueMessageName (env : List Message) (f : FieldD) : Option String :=
  match f.message with
  | none => none
  | some entryName =>
    match lookupMsg env entryName with
    | none => none
    | some entry =>
      match entry.fields.find? (fun g => g.number == 2) with
      | none => none
      | some g => g.message

/-- Source: `getMapSchemaConfig` (map fields): container type
`"object"`, key-format pattern for non-string keys, nested config for
the value type. -/
def getMapSchemaConfig (env : List Message) (f : FieldD) (title description : String) : SchemaFieldConfig :=
  let kindTypeName := kindTypeNameOrEmpty f.mapValueKind
  let nested : Option SchemaFieldConfig :=
    if f.mapValueKind = messageKind then
      match mapValueMessageName env f with
      | some valName => some (getMessageSchemaConfig valName)
      | none => none
    else if f.mapValueKind = enumKind then some (cfgTypedEnum kindTypeName f.mapValueEnumValues)
    else if f.mapValueKind = bytesKind then some (cfgTypedBytes kindTypeName)
    else some (cfgTyped kindTypeName)
  SchemaFieldConfig.mk (getFieldName f) title description jsObject "" ""
    (mapKeyPattern f.mapKeyKind) [] false none nested

/-- Source: `generateFieldJSONSchema`'s routing by cardinality: list →
array config, map → map config, otherwise scalar config.  Title and
description come from the field's comments. -/
def fieldConfig (env : List Message) (f : FieldD) : SchemaFieldConfig :=
  if f.isList then getArraySchemaConfig f f.title f.description
  else if f.isMap then getMapSchemaConfig env f f.title f.description
  else getScalarSchemaConfig f f.title f.description

/-! ## Required fields (source: the required-field loop in
`generateMessageJSONSchema`) -/

/-- A field is required iff it is not ignored, not in any oneof
(synthetic ones included: `field.Oneof == nil`), not declared optional,
not repeated and not a map. -/
def requiredFields (m : Message) : List String :=
  (m.fields.filter (fun f =>
    !(getIgnore f.opts) && f.oneofName.isNone && !f.hasOptionalKeyword &&
    !f.isList && !f.isMap)).map getFieldName

/-! ## Oneof groups (source: the oneof tracking and constraint emission
in `generateMessageJSONSchema`) -/

/-- Go map insertion `oneofGroups[name] = append(oneofGroups[name], f)`
on an association list. -/
def addToGroup (groups : List (String × List String)) (groupName fieldName : String) :
    List (String × List String) :=
  if (groups.find? (fun p => p.1 == groupName)).isSome then
    groups.map (fun p => if p.1 == groupName then (p.1, p.2 ++ [fieldName]) else p)
  else groups ++ [(groupName, [fieldName])]

/-- The body of the oneof-collection loop: a non-ignored field in a
non-synthetic oneof is appended to its group. -/
def oneofStep (gs : List (String × List String)) (f : FieldD) :
    List (String × List String) :=
  if getIgnore f.opts then gs
  else
    match f.oneofName with
    | some n => if f.oneofSynthetic then gs else addToGroup gs n (getFieldName f)
    | none => gs

/-- Collect non-synthetic oneof groups over the non-ignored fields, in
field order. -/
def oneofGroups (m : Message) : List (String × List String) :=
  m.fields.foldl oneofStep []

def groupFieldsOf (groups : List (String × List String)) (n : String) : List String :=
  ((groups.find? (fun p => p.1 == n)).map Prod.snd).getD []

/-- Insertion into a sorted list of strings. -/
def insertSorted (x : String) : List String → List String
  | [] => [x]
  | y :: ys => if x ≤ y then x :: y :: ys else y :: insertSorted x ys

/-- Models `sort.Strings(groupNames)`. -/
def sortStrings (l : List String) : List String :=
  l.foldr insertSorted []

/-! ## Runtime schema values

`jsonschema.Schema` as populated by the generated code.  The Go struct
is a pointer structure; the generated code only ever mutates the
registry entry it has itself just inserted, so the heap is faithfully
represented by threading the registry (an association list) through the
interpreter.  Fields not populated by any generated statement are
omitted; string fields use `""`, lists `[]` for Go zero values. -/

inductive Schema where
  | mk (type title description ref format pattern contentEncoding : String)
      (enumVals : List Int)
      (properties : List (String × Schema))
      (required : List String)
      (items additionalProperties propertyNames : Option Schema)
      (oneOf allOf : List Schema)
      (defs : List (String × Schema))

def Schema.type : Schema → String
  | .mk v _ _ _ _ _ _ _ _ _ _ _ _ _ _ _ => v

def Schema.title : Schema → String
  | .mk _ v _ _ _ _ _ _ _ _ _ _ _ _ _ _ => v

def Schema.description : Schema → String
  | .mk _ _ v _ _ _ _ _ _ _ _ _ _ _ _ _ => v

def Schema.ref : Schema → String
  | .mk _ _ _ v _ _ _ _ _ _ _ _ _ _ _ _ => v

def Schema.format : Schema → String
  | .mk _ _ _ _ v _ _ _ _ _ _ _ _ _ _ _ => v

def Schema.pattern : Schema → String
  | .mk _ _ _ _ _ v _ _ _ _ _ _ _ _ _ _ => v

def Schema.contentEncoding : Schema → String
  | .mk _ _ _ _ _ _ v _ _ _ _ _ _ _ _ _ => v

def Schema.enumVals : Schema → List Int
  | .mk _ _ _ _ _ _ _ v _ _ _ _ _ _ _ _ => v

def Schema.properties : Schema → List (String × Schema)
  | .mk _ _ _ _ _ _ _ _ v _ _ _ _ _ _ _ => v

def Schema.required : Schema → List String
  | .mk _ _ _ _ _ _ _ _ _ v _ _ _ _ _ _ => v

def Schema.items : Schema → Option Schema
  | .mk _ _ _ _ _ _ _ _ _ _ v _ _ _ _ _ => v

def Schema.additionalProperties : Schema → Option Schema
  | .mk _ _ _ _ _ _ _ _ _ _ _ v _ _ _ _ => v

def Schema.propertyNames : Schema → Option Schema
  | .mk _ _ _ _ _ _ _ _ _ _ _ _ v _ _ _ => v

def Schema.oneOf : Schema → List Schema
  | .mk _ _ _ _ _ _ _ _ _ _ _ _ _ v _ _ => v

def Schema.allOf : Schema → List Schema
  | .mk _ _ _ _ _ _ _ _ _ _ _ _ _ _ v _ => v

def Schema.defs : Schema → List (String × Schema)
  | .mk _ _ _ _ _ _ _ _ _ _ _ _ _ _ _ v => v

/-- `&jsonschema.Schema{Ref: "#/$defs/" + key}` — a pure reference
node. -/
def refSchema (key : String) : Schema :=
  Schema.mk "" "" "" ("#/$defs/" ++ key) "" "" "" [] [] [] none none none [] [] []

/-- `&jsonschema.Schema{Pattern: p}` — used for `PropertyNames`. -/
def patternSchema (p : String) : Schema :=
  Schema.mk "" "" "" "" "" p "" [] [] [] none none none [] [] []

/-- `{Required: []string{f}}` — a oneof member sub-schema. -/
def requiredOnlySchema (f : String) : Schema :=
  Schema.mk "" "" "" "" "" "" "" [] [] [f] none none none [] [] []

/-- `{OneOf: [...]}` — one oneof group inside an `AllOf` wrapper. -/
def oneOfOnlySchema (l : List Schema) : Schema :=
  Schema.mk "" "" "" "" "" "" "" [] [] [] none none none l [] []

/-- The schema literal built at the top of the generated
`_JsonSchema_WithDefs` function: object type, message title and
description, empty properties, required list. -/
def initEntry (m : Message) : Schema :=
  Schema.mk "object" m.title m.description "" "" "" "" [] [] (requiredFields m) none none none [] [] []

/-- Go map assignment on the `Properties` map: replace an existing key
or append a new binding. -/
def upsertProp : List (String × Schema) → String → Schema → List (String × Schema)
  | [], name, v => [(name, v)]
  | (k, w) :: rest, name, v =>
    if k == name then (k, v) :: rest else (k, w) :: upsertProp rest name v

def Schema.setProp : Schema → String → Schema → Schema
  | .mk t ti d r fo p ce e props req it ap pn oo ao dfs, name, v =>
    .mk t ti d r fo p ce e (upsertProp props name v) req it ap pn oo ao dfs

def Schema.setOneOf : Schema → List Schema → Schema
  | .mk t ti d r fo p ce e props req it ap pn _ ao dfs, l =>
    .mk t ti d r fo p ce e props req it ap pn l ao dfs

def Schema.setAllOf : Schema → List Schema → Schema
  | .mk t ti d r fo p ce e props req it ap pn oo _ dfs, l =>
    .mk t ti d r fo p ce e props req it ap pn oo l dfs

def Schema.setDefs : Schema → List (String × Schema) → Schema
  | .mk t ti d r fo p ce e props req it ap pn oo ao _, dfs =>
    .mk t ti d r fo p ce e props req it ap pn oo ao dfs

def lookupProp (s : Schema) (name : String) : Option Schema :=
  (s.properties.find? (fun p => p.1 == name)).map Prod.snd

/-- Source: the oneof constraint emission at the end of
`generateMessageJSONSchema`: one group sets `OneOf` directly, several
groups wrap each group's `OneOf` inside `AllOf`.  The group names are
sorted for deterministic output. -/
def applyOneofConstraints (m : Message) (schema : Schema) : Schema :=
  let groups := oneofGroups m
  match sortStrings (groups.map Prod.fst) with
  | [] => schema
  | [n] => schema.setOneOf ((groupFieldsOf groups n).map requiredOnlySchema)
  | n1 :: n2 :: ns =>
    schema.setAllOf ((n1 :: n2 :: ns).map
      (fun n => oneOfOnlySchema ((groupFieldsOf groups n).map requiredOnlySchema)))

/-! ## The definitions registry -/

abbrev Defs := List (String × Schema)

def lookupDef (defs : Defs) (k : String) : Option Schema :=
  (defs.find? (fun p => p.1 == k)).map Prod.snd

def hasKey (defs : Defs) (k : String) : Bool :=
  (defs.find? (fun p => p.1 == k)).isSome

/-- `schema.Properties[name] = v` where `schema` is the registry entry
at `k` (the generated code mutates the registered node in place). -/
def setPropAt (defs : Defs) (k name : String) (v : Schema) : Defs :=
  defs.map (fun p => if p.1 == k then (p.1, p.2.setProp name v) else p)

def updateDefAt (defs : Defs) (k : String) (g : Schema → Schema) : Defs :=
  defs.map (fun p => if p.1 == k then (p.1, g p.2) else p)

/-! ## Runtime semantics of the emitted field statements
(source: `emitSchemaField`) -/

/-- `if opts.Get* != "" { x = opts.Get* }` -/
def overrideStr (optVal base : String) : String :=
  if optVal ≠ "" then optVal else base

/-- The direct-reference optimization guard in `emitSchemaField`:
`cfg.messageRef != "" && cfg.typeName == "" && cfg.nested == nil`
with no field options. -/
def isDirectMessageRef (cfg : SchemaFieldConfig) (opts : Option FieldOpts) : Bool :=
  cfg.messageRef.isSome && cfg.typeName == "" && cfg.nested.isNone && opts.isNone

/-- The message whose `_JsonSchema_WithDefs` builder the emitted field
statement calls, if any: the direct reference target, or the nested
(items / additionalProperties) reference target. -/
def depNameOf (cfg : SchemaFieldConfig) (opts : Option FieldOpts) : Option String :=
  if isDirectMessageRef cfg opts then cfg.messageRef
  else
    match cfg.nested with
    | some n => n.messageRef
    | none => none

/-- The inline nested (items / additionalProperties) schema emitted
when the element is not a message reference: element type (with the
`"object"` fallback for external types), plus the value constraints of
`emitValueConstraints` applied to the element config. -/
def inlineNested (n : SchemaFieldConfig) (opts : Option FieldOpts) : Schema :=
  Schema.mk
    (if n.typeName ≠ "" then n.typeName else if n.nested.isNone then "object" else "")
    "" "" ""
    (overrideStr (getFormatOpt opts) n.format)
    (overrideStr (getPatternOpt opts) n.pattern)
    (if getContentEncodingOpt opts ≠ "" then getContentEncodingOpt opts
     else if n.isBytes then "base64" else "")
    n.enumValues [] [] none none none [] [] []

/-- The schema object built by the non-optimized path of
`emitSchemaField`: type, title/description with option overrides,
items or additionalProperties for containers (`dep` is the result of
the nested builder call when the element is a message reference), value
constraints for scalars, and the `PropertyNames` pattern for maps with
non-string keys.  Note that `cfg.messageRef` is not consulted on this
path: a singular message field that carries options loses its
reference. -/
def buildGeneralValue (cfg : SchemaFieldConfig) (opts : Option FieldOpts) (dep : Option Schema) : Schema :=
  let titleVal := overrideStr (getTitleOpt opts) cfg.title
  let descrVal := overrideStr (getDescriptionOpt opts) cfg.description
  let pn : Option Schema :=
    if cfg.propertyNamesPattern ≠ "" then some (patternSchema cfg.propertyNamesPattern) else none
  match cfg.nested with
  | some n =>
    let target : Schema :=
      match n.messageRef, dep with
      | some _, some d => d
      | _, _ => inlineNested n opts
    if cfg.typeName = jsObject then
      Schema.mk cfg.typeName titleVal descrVal "" "" "" "" [] [] [] none (some target) pn [] [] []
    else
      Schema.mk cfg.typeName titleVal descrVal "" "" "" "" [] [] [] (some target) none pn [] [] []
  | none =>
    Schema.mk cfg.typeName titleVal descrVal ""
      (overrideStr (getFormatOpt opts) cfg.format)
      (overrideStr (getPatternOpt opts) cfg.pattern)
      (if getContentEncodingOpt opts ≠ "" then getContentEncodingOpt opts
       else if cfg.isBytes then "base64" else "")
      cfg.enumValues [] [] none none pn [] [] []

/-! ## The generated builder functions, interpreted

`synthStep env fuel (SynthTask.msg m) defs` is one call to the generated
`<m>_JsonSchema_WithDefs(defs)`; `SynthTask.flds` is its field loop.
Fuel only bounds call depth; `none` means fuel ran out or a message
reference did not resolve (the generated call would not link). -/

inductive SynthTask where
  | msg (m : Message)
  | flds (key : String) (fields : List FieldD)

def synthStep (env : List Message) : Nat → SynthTask → Defs → Option (Schema × Defs)
  | 0, _, _ => none
  | fuel + 1, SynthTask.msg m, defs =>
    let defKey := m.fullName
    -- `if _, ok := defs[key]; ok { return &Schema{Ref: ...} }`
    if hasKey defs defKey then some (refSchema defKey, defs)
    else
      -- register the (incomplete) schema BEFORE processing fields,
      -- then process fields, then attach oneof constraints
      Option.bind
        (synthStep env fuel (SynthTask.flds defKey m.fields) (defs ++ [(defKey, initEntry m)]))
        (fun s => some (refSchema defKey, updateDefAt s.2 defKey (applyOneofConstraints m)))
  | _ + 1, SynthTask.flds _ [], defs => some (refSchema "", defs)
  | fuel + 1, SynthTask.flds key (f :: fs), defs =>
    if getIgnore f.opts then synthStep env fuel (SynthTask.flds key fs) defs
    else
      let cfg := fieldConfig env f
      match depNameOf cfg f.opts with
      | none =>
        synthStep env fuel (SynthTask.flds key fs)
          (setPropAt defs key cfg.fieldName (buildGeneralValue cfg f.opts none))
      | some depName =>
        Option.bind (lookupMsg env depName) (fun depMsg =>
          Option.bind (synthStep env fuel (SynthTask.msg depMsg) defs) (fun s =>
            synthStep env fuel (SynthTask.flds key fs)
              (setPropAt s.2 key cfg.fieldName
                (if isDirectMessageRef cfg f.opts then s.1
                 else buildGeneralValue cfg f.opts (some s.1)))))

/-- The generated public entry point `JsonSchema()` (ref-as-root):
fresh registry, populate it via the builder, return a fresh reference
node carrying the registry as its `Defs`. -/
def jsonSchemaRoot (env : List Message) (fuel : Nat) (m : Message) : Option Schema :=
  match synthStep env fuel (SynthTask.msg m) [] with
  | none => none
  | some (_, defs) => some ((refSchema m.fullName).setDefs defs)

/-- The property value the emitted statement for field `f` stores, as a
pure function (the builder called for a message reference always
returns a pure reference to that message's key). -/
def fieldPropValue (env : List Message) (f : FieldD) : Option Schema :=
  let cfg := fieldConfig env f
  match depNameOf cfg f.opts with
  | none => some (buildGeneralValue cfg f.opts none)
  | some depName =>
    match lookupMsg env depName with
    | none => none
    | some depMsg =>
      some (if isDirectMessageRef cfg f.opts then refSchema depMsg.fullName
            else buildGeneralValue cfg f.opts (some (refSchema depMsg.fullName)))

/-- The cumulative effect of the field loop on the registry entry being
built. -/
def applyFieldProps (env : List Message) (fs : List FieldD) (e : Schema) : Schema :=
  fs.foldl (fun acc f =>
    if getIgnore f.opts then acc
    else
      match fieldPropValue env f with
      | some v => acc.setProp (fieldConfig env f).fieldName v
      | none => acc) e

/-! ## The selection engine
(source: `getMessages` / `getMessagesWithForce`) -/

/-- The generation-flag computation of `getMessagesWithForce`: start
from the inherited default; a message-level option overrides it, except
that under forced selection an explicit `generate=false` is ignored and
the inherited default kept. -/
def shouldGenerate (defaultGenerate force : Bool) (opt : Option Bool) : Bool :=
  match opt with
  | none => defaultGenerate
  | some optValue => if force && !optValue then defaultGenerate else optValue

/-- The value-message search in the selection engine's map-field
handling: field number 2 of the synthetic map entry, with a non-nil
message. -/
def mapEntryValueMessage (env : List Message) (f : FieldD) : Option Message :=
  match f.message with
  | none => none
  | some entryName =>
    match lookupMsg env entryName with
    | none => none
    | some entry =>
      match entry.fields.find? (fun g => g.number == 2 && g.message.isSome) with
      | none => none
      | some g =>
        match g.message with
        | none => none
        | some valName => lookupMsg env valName

def resolveAll (env : List Message) (names : List String) : List Message :=
  names.filterMap (lookupMsg env)

inductive SelTask where
  | msgs (msgs : List Message) (defaultGenerate force : Bool)
  | deps (fields : List FieldD)

/-- The recursive body of `getMessagesWithForce`.  `SelTask.msgs` is a
call on a message list; `SelTask.deps` is the field-dependency loop run
for a newly visited message.  Returns the collected messages (in
traversal order) and the updated visited set. -/
def selectStep (env : List Message) : Nat → SelTask → List String → Option (List Message × List String)
  | 0, _, _ => none
  | _ + 1, SelTask.msgs [] _ _, visited => some ([], visited)
  | fuel + 1, SelTask.msgs (message :: rest) defaultGenerate force, visited =>
    -- map entries are skipped outright
    if message.isMapEntry then
      selectStep env fuel (SelTask.msgs rest defaultGenerate force) visited
    else if shouldGenerate defaultGenerate force message.genOpt then
      Option.bind
        (if visited.contains message.fullName then some (([] : List Message), visited)
         else
           Option.bind (selectStep env fuel (SelTask.deps message.fields) (message.fullName :: visited))
             (fun dr => some (message :: dr.1, dr.2)))
        (fun s1 =>
          -- nested messages are forced whenever the parent generates
          Option.bind
            (if message.nested.isEmpty then some (([] : List Message), s1.2)
             else selectStep env fuel (SelTask.msgs (resolveAll env message.nested) true true) s1.2)
            (fun s2 =>
              Option.bind (selectStep env fuel (SelTask.msgs rest defaultGenerate force) s2.2)
                (fun s3 => some (s1.1 ++ s2.1 ++ s3.1, s3.2))))
    else
      selectStep env fuel (SelTask.msgs rest defaultGenerate force) visited
  | _ + 1, SelTask.deps [], visited => some ([], visited)
  | fuel + 1, SelTask.deps (field :: fs), visited =>
    if field.kind = messageKind then
      if field.isMap then
        if field.mapValueKind = messageKind then
          match mapEntryValueMessage env field with
          | none => selectStep env fuel (SelTask.deps fs) visited
          | some valueMsg =>
            Option.bind (selectStep env fuel (SelTask.msgs [valueMsg] true true) visited)
              (fun s1 =>
                Option.bind (selectStep env fuel (SelTask.deps fs) s1.2)
                  (fun s2 => some (s1.1 ++ s2.1, s2.2)))
        else selectStep env fuel (SelTask.deps fs) visited
      else
        match field.message.bind (lookupMsg env) with
        | none => selectStep env fuel (SelTask.deps fs) visited
        | some depMsg =>
          Option.bind (selectStep env fuel (SelTask.msgs [depMsg] true true) visited)
            (fun s1 =>
              Option.bind (selectStep env fuel (SelTask.deps fs) s1.2)
                (fun s2 => some (s1.1 ++ s2.1, s2.2)))
    else selectStep env fuel (SelTask.deps fs) visited

/-- Source: `getMessagesWithForce(messages, defaultGenerate, force, visited)`. -/
def getMessagesWithForce (env : List Message) (fuel : Nat) (msgs : List Message)
    (defaultGenerate force : Bool) (visited : List String) :
    Option (List Message × List String) :=
  selectStep env fuel (SelTask.msgs msgs defaultGenerate force) visited

/-- Source: `getMessages(messages, defaultGenerate, visited)` with the
fresh visited map the file generator passes in. -/
def getMessages (env : List Message) (fuel : Nat) (msgs : List Message)
    (defaultGenerate : Bool) : Option (List Message × List String) :=
  getMessagesWithForce env fuel msgs defaultGenerate false []

/-! ## Derived predicates used in the statements -/

/-- Closure of the selected set `S` at one message: every message-kind
field dependency (for maps, the synthetic pair's value message) and
every nested non-map-entry message resolves into `S`. -/
def msgClosedAt (env : List Message) (m : Message) (S : List String) : Prop :=
  (∀ f ∈ m.fields, f.kind = messageKind → f.isMap = false →
    ∀ dm, f.message.bind (lookupMsg env) = some dm → dm.isMapEntry = false →
      dm.fullName ∈ S) ∧
  (∀ f ∈ m.fields, f.kind = messageKind → f.isMap = true → f.mapValueKind = messageKind →
    ∀ vm, mapEntryValueMessage env f = some vm → vm.isMapEntry = false →
      vm.fullName ∈ S) ∧
  (∀ n ∈ m.nested, ∀ nm, lookupMsg env n = some nm → nm.isMapEntry = false →
    nm.fullName ∈ S)

/-- Every builder call the field statements of `f` emit resolves in
`env` (in the source this is the guarantee that the referenced
`_JsonSchema_WithDefs` function exists). -/
def fieldResolves (env : List Message) (f : FieldD) : Bool :=
  getIgnore f.opts ||
    match depNameOf (fieldConfig env f) f.opts with
    | none => true
    | some nm => (lookupMsg env nm).isSome

/-- All builder references of all messages in the environment resolve. -/
def envResolves (env : List Message) : Bool :=
  env.all (fun m => m.fields.all (fieldResolves env))

/-- The count of environment names not yet registered: the termination
measure of the synthesis recursion. -/
def missingCount (env : List Message) (defs : Defs) : Nat :=
  ((env.map Message.fullName).filter (fun n => !(hasKey defs n))).length

/-! ## Concrete example descriptors (used by witnesses and
counterexamples) -/

def baseField : FieldD :=
  { name := "", jsonName := "", number := 1, kind := stringKind, isList := false,
    isMap := false, hasOptionalKeyword := false, oneofName := none,
    oneofSynthetic := false, message := none, mapKeyKind := 0, mapValueKind := 0,
    enumValues := [], mapValueEnumValues := [], title := "", description := "",
    opts := none }

def baseMessage : Message :=
  { fullName := "", isMapEntry := false, genOpt := none, title := "",
    description := "", fields := [], nested := [] }

/-- The message of the required-field example: `{a: singular string,
b: repeated string, c: map<string,string>, d: oneof{e,f}}`. -/
def exampleRequiredMsg : Message :=
  { baseMessage with
    fullName := "pkg.Example",
    fields :=
      [ { baseField with name := "a" },
        { baseField with name := "b", isList := true },
        { baseField with
            name := "c", kind := messageKind, isMap := true,
            mapKeyKind := stringKind, mapValueKind := stringKind,
            message := some "pkg.Example.CEntry" },
        { baseField with name := "e", oneofName := some "d" },
        { baseField with name := "f", oneofName := some "d" } ],
    nested := ["pkg.Example.CEntry"] }

/-- A map field with `int32` keys (for the map-key-validation witness). -/
def exampleIntKeyMapField : FieldD :=
  { baseField with
      name := "counts", kind := messageKind, isMap := true,
      mapKeyKind := int32Kind, mapValueKind := stringKind,
      message := some "pkg.M.CountsEntry" }


/-- C1 example: a dependency message referenced by a parent field. -/
def depMsgC1 : Message :=
  { baseMessage with fullName := "pkg.Dep" }

/-- C1 example: a nested message with an explicit `generate=false`
override, forced anyway when the parent generates. -/
def childMsgC1 : Message :=
  { baseMessage with fullName := "pkg.Parent.Child", genOpt := some false }

/-- C1 example: the value message of a map field. -/
def valueMsgC1 : Message :=
  { baseMessage with fullName := "pkg.Val" }

/-- C1 example: the synthetic map-entry message of the parent's map
field. -/
def entryMsgC1 : Message :=
  { baseMessage with
      fullName := "pkg.Parent.ItemsEntry", isMapEntry := true,
      fields := [ { baseField with name := "key", number := 1 },
                  { baseField with
                      name := "value", number := 2, kind := messageKind,
                      message := some "pkg.Val" } ] }

/-- C1 example: a parent message with a message field, a map field with
message values, and two nested messages. -/
def parentMsgC1 : Message :=
  { baseMessage with
      fullName := "pkg.Parent",
      fields :=
        [ { baseField with name := "dep", kind := messageKind, message := some "pkg.Dep" },
          { baseField with
              name := "items", kind := messageKind, isMap := true,
              mapKeyKind := stringKind, mapValueKind := messageKind,
              message := some "pkg.Parent.ItemsEntry" } ],
      nested := ["pkg.Parent.Child", "pkg.Parent.ItemsEntry"] }

def envC1 : List Message := [parentMsgC1, depMsgC1, childMsgC1, entryMsgC1, valueMsgC1]


/-- C2/C9 example: a directly self-referential message. -/
def selfMsgC2 : Message :=
  { baseMessage with
      fullName := "pkg.Node",
      fields := [{ baseField with
                     name := "next", kind := messageKind, message := some "pkg.Node" }] }

def envC2 : List Message := [selfMsgC2]

/-- The registry entry the builder produces for the self-referential
example message. -/
def selfEntryC2 : Schema :=
  Schema.mk "object" "" "" "" "" "" "" [] [("next", refSchema "pkg.Node")] ["next"]
    none none none [] [] []

def defsC2 : Defs := [("pkg.Node", selfEntryC2)]

/-- C5 example: a field whose kind value lies outside the closed kind
set. -/
def badFieldC5 : FieldD := { baseField with name := "weird", kind := 99 }

def badMsgC5 : Message :=
  { baseMessage with fullName := "pkg.Bad", fields := [badFieldC5] }

def envC5 : List Message := [badMsgC5]

/-- The (typeless) property schema emitted for the unsupported-kind
field. -/
def weirdPropC5 : Schema :=
  Schema.mk "" "" "" "" "" "" "" [] [] [] none none none [] [] []

/-- The registry entry the builder produces for the unsupported-kind
example message: generation went through and even lists the field. -/
def badEntryC5 : Schema :=
  Schema.mk "object" "" "" "" "" "" "" [] [("weird", weirdPropC5)] ["weird"]
    none none none [] [] []

-- ==================== THEOREMS ====================

/-! ## C6: totality of the base type mapping -/

/-- **C6.** The base type mapping is total over the closed set of field
kinds and maps boolean→boolean, all 32/64-bit integer kinds→integer,
float/double→number, string→string, bytes→string, enum→integer,
message/group→object; `getKindTypeName` succeeds exactly on the closed
kind set. -/
theorem getKindTypeName_total_closed_mapping :
    (getKindTypeName boolKind = Except.ok jsBoolean ∧
     getKindTypeName int32Kind = Except.ok jsInteger ∧
     getKindTypeName sint32Kind = Except.ok jsInteger ∧
     getKindTypeName uint32Kind = Except.ok jsInteger ∧
     getKindTypeName fixed32Kind = Except.ok jsInteger ∧
     getKindTypeName sfixed32Kind = Except.ok jsInteger ∧
     getKindTypeName int64Kind = Except.ok jsInteger ∧
     getKindTypeName sint64Kind = Except.ok jsInteger ∧
     getKindTypeName uint64Kind = Except.ok jsInteger ∧
     getKindTypeName fixed64Kind = Except.ok jsInteger ∧
     getKindTypeName sfixed64Kind = Except.ok jsInteger ∧
     getKindTypeName floatKind = Except.ok jsNumber ∧
     getKindTypeName doubleKind = Except.ok jsNumber ∧
     getKindTypeName stringKind = Except.ok jsString ∧
     getKindTypeName bytesKind = Except.ok jsString ∧
     getKindTypeName enumKind = Except.ok jsInteger ∧
     getKindTypeName messageKind = Except.ok jsObject ∧
     getKindTypeName groupKind = Except.ok jsObject) ∧
    (∀ kind : Int, (∃ s, getKindTypeName kind = Except.ok s) ↔ kind ∈ closedKinds) := by
  refine ⟨⟨rfl, rfl, rfl, rfl, rfl, rfl, rfl, rfl, rfl, rfl, rfl, rfl, rfl, rfl, rfl, rfl, rfl, rfl⟩, ?_⟩
  intro kind
  constructor
  · rintro ⟨s, hs⟩
    unfold getKindTypeName at hs
    split_ifs at hs with h1 h2 h3 h4 h5 h6 h7 h8 h9
    · subst h1; decide
    · subst h2; decide
    · rcases h3 with h | h | h | h | h <;> (subst h; decide)
    · rcases h4 with h | h | h | h | h <;> (subst h; decide)
    · rcases h5 with h | h <;> (subst h; decide)
    · subst h6; decide
    · subst h7; decide
    · subst h8; decide
    · subst h9; decide
  · intro hk
    fin_cases hk <;> exact ⟨_, rfl⟩

/-- Witness for C6: the mapping succeeds at a member of the closed set. -/
theorem getKindTypeName_total_closed_mapping_witness :
    ∃ s, getKindTypeName groupKind = Except.ok s :=
  (getKindTypeName_total_closed_mapping.2 groupKind).mpr (by decide)

/-! ## C7: map key validation -/

/-- **C7.** Every map field's config has container type `"object"` and
carries key-name pattern `^-?[0-9]+$` for any integer key kind,
`^(true|false)$` for boolean keys, and no pattern for string keys. -/
theorem getMapSchemaConfig_key_validation :
    ∀ (env : List Message) (f : FieldD) (title description : String),
      (getMapSchemaConfig env f title description).typeName = jsObject ∧
      ((f.mapKeyKind = int32Kind ∨ f.mapKeyKind = sint32Kind ∨ f.mapKeyKind = uint32Kind ∨
        f.mapKeyKind = fixed32Kind ∨ f.mapKeyKind = sfixed32Kind ∨
        f.mapKeyKind = int64Kind ∨ f.mapKeyKind = sint64Kind ∨ f.mapKeyKind = uint64Kind ∨
        f.mapKeyKind = fixed64Kind ∨ f.mapKeyKind = sfixed64Kind) →
        (getMapSchemaConfig env f title description).propertyNamesPattern = "^-?[0-9]+$") ∧
      (f.mapKeyKind = boolKind →
        (getMapSchemaConfig env f title description).propertyNamesPattern = "^(true|false)$") ∧
      (f.mapKeyKind = stringKind →
        (getMapSchemaConfig env f title description).propertyNamesPattern = "") := by
  intro env f title description
  refine ⟨rfl, ?_, ?_, ?_⟩
  · intro h
    show mapKeyPattern f.mapKeyKind = "^-?[0-9]+$"
    rcases h with h | h | h | h | h | h | h | h | h | h <;> (rw [h]; decide)
  · intro h
    show mapKeyPattern f.mapKeyKind = "^(true|false)$"
    rw [h]; decide
  · intro h
    show mapKeyPattern f.mapKeyKind = ""
    rw [h]; decide

/-- Witness for C7: an `int32`-keyed map field gets the numeric
key-name pattern. -/
theorem getMapSchemaConfig_key_validation_witness :
    (getMapSchemaConfig [] exampleIntKeyMapField "" "").propertyNamesPattern = "^-?[0-9]+$" :=
  (getMapSchemaConfig_key_validation [] exampleIntKeyMapField "" "").2.1 (by decide)

/-! ## C4: the required-field rule -/

/-- **C4.** A non-ignored field's name appears in the required list iff
the field is in no oneof, not optional, not repeated and not a map; on
the example message `{a: string, b: repeated string,
c: map<string,string>, d: oneof{e,f}}` the required list is exactly
`["a"]`. -/
theorem required_field_rule :
    (∀ (m : Message) (f : FieldD), f ∈ m.fields → (m.fields.map FieldD.name).Nodup →
      getIgnore f.opts = false →
      (f.name ∈ requiredFields m ↔
        (f.oneofName = none ∧ f.hasOptionalKeyword = false ∧
         f.isList = false ∧ f.isMap = false))) ∧
    requiredFields exampleRequiredMsg = ["a"] := by
  constructor
  · intro m f hf hnodup hig
    constructor
    · intro hmem
      simp only [requiredFields, List.mem_map, List.mem_filter] at hmem
      obtain ⟨g, ⟨hgmem, hp⟩, hname⟩ := hmem
      have hfg : g = f := List.inj_on_of_nodup_map hnodup hgmem hf hname
      subst hfg
      simp only [Bool.and_eq_true, Bool.not_eq_true', Option.isNone_iff_eq_none] at hp
      exact ⟨hp.1.1.1.2, hp.1.1.2, hp.1.2, hp.2⟩
    · rintro ⟨h1, h2, h3, h4⟩
      simp only [requiredFields, List.mem_map, List.mem_filter]
      refine ⟨f, ⟨hf, ?_⟩, rfl⟩
      simp [hig, h1, h2, h3, h4]
  · decide

/-- Witness for C4: the rule applied to field `a` of the example
message. -/
theorem required_field_rule_witness :
    "a" ∈ requiredFields exampleRequiredMsg ↔
      (({ baseField with name := "a" } : FieldD).oneofName = none ∧
       ({ baseField with name := "a" } : FieldD).hasOptionalKeyword = false ∧
       ({ baseField with name := "a" } : FieldD).isList = false ∧
       ({ baseField with name := "a" } : FieldD).isMap = false) :=
  required_field_rule.1 exampleRequiredMsg { baseField with name := "a" }
    (by decide) (by decide) (by decide)


/-! ## Selection-engine lemmas (toward C1) -/

/-- The visited set only grows. -/
theorem selectStep_visited_mono (env : List Message) (fuel : Nat) :
    ∀ (t : SelTask) (v : List String) (r : List Message) (v' : List String),
      selectStep env fuel t v = some (r, v') → v ⊆ v' := by
  induction fuel with
  | zero => intro t v r v' h; simp [selectStep] at h
  | succ fuel ih =>
    intro t v r v' h
    cases t with
    | msgs ms d f =>
      cases ms with
      | nil =>
        simp only [selectStep, Option.some.injEq, Prod.mk.injEq] at h
        obtain ⟨-, rfl⟩ := h
        exact fun x hx => hx
      | cons message rest =>
        simp only [selectStep] at h
        by_cases hme : message.isMapEntry = true
        · rw [if_pos hme] at h
          exact ih _ _ _ _ h
        · rw [if_neg hme] at h
          by_cases hsg : shouldGenerate d f message.genOpt = true
          · rw [if_pos hsg] at h
            simp only [Option.bind_eq_some, Option.some.injEq, Prod.mk.injEq] at h
            obtain ⟨s1, hs1, s2, hs2, s3, hs3, -, hv⟩ := h
            subst hv
            have h1 : v ⊆ s1.2 := by
              by_cases hc : v.contains message.fullName = true
              · rw [if_pos hc] at hs1
                simp only [Option.some.injEq] at hs1
                subst hs1
                exact fun x hx => hx
              · rw [if_neg hc] at hs1
                simp only [Option.bind_eq_some, Option.some.injEq] at hs1
                obtain ⟨dr, hdr, hs1⟩ := hs1
                subst hs1
                exact fun x hx => ih _ _ _ _ hdr (List.mem_cons_of_mem _ hx)
            have h2 : s1.2 ⊆ s2.2 := by
              by_cases hne : message.nested.isEmpty = true
              · rw [if_pos hne] at hs2
                simp only [Option.some.injEq] at hs2
                subst hs2
                exact fun x hx => hx
              · rw [if_neg hne] at hs2
                exact ih _ _ _ _ hs2
            exact fun x hx => ih _ _ _ _ hs3 (h2 (h1 hx))
          · rw [if_neg hsg] at h
            exact ih _ _ _ _ h
    | deps fs =>
      cases fs with
      | nil =>
        simp only [selectStep, Option.some.injEq, Prod.mk.injEq] at h
        obtain ⟨-, rfl⟩ := h
        exact fun x hx => hx
      | cons field fs =>
        simp only [selectStep] at h
        by_cases hk : field.kind = messageKind
        · rw [if_pos hk] at h
          by_cases hm : field.isMap = true
          · rw [if_pos hm] at h
            by_cases hvk : field.mapValueKind = messageKind
            · rw [if_pos hvk] at h
              cases hmv : mapEntryValueMessage env field with
              | none =>
                rw [hmv] at h
                exact ih _ _ _ _ h
              | some valueMsg =>
                rw [hmv] at h
                simp only [Option.bind_eq_some, Option.some.injEq, Prod.mk.injEq] at h
                obtain ⟨s1, hs1, s2, hs2, -, hv⟩ := h
                subst hv
                exact fun x hx => ih _ _ _ _ hs2 (ih _ _ _ _ hs1 hx)
            · rw [if_neg hvk] at h
              exact ih _ _ _ _ h
          · rw [if_neg hm] at h
            cases hmv : field.message.bind (lookupMsg env) with
            | none =>
              rw [hmv] at h
              exact ih _ _ _ _ h
            | some depMsg =>
              rw [hmv] at h
              simp only [Option.bind_eq_some, Option.some.injEq, Prod.mk.injEq] at h
              obtain ⟨s1, hs1, s2, hs2, -, hv⟩ := h
              subst hv
              exact fun x hx => ih _ _ _ _ hs2 (ih _ _ _ _ hs1 hx)
        · rw [if_neg hk] at h
          exact ih _ _ _ _ h

/-- Under forced selection (`defaultGenerate = force = true`) the
generation flag is true regardless of any message-level option. -/
theorem shouldGenerate_forced (o : Option Bool) : shouldGenerate true true o = true := by
  cases o with
  | none => rfl
  | some b => cases b <;> rfl

/-- A forced selection call puts every non-map-entry input message's
name into the visited set. -/
theorem selectStep_forced_mem (env : List Message) (fuel : Nat) :
    ∀ (ms : List Message) (v : List String) (r : List Message) (v' : List String),
      selectStep env fuel (SelTask.msgs ms true true) v = some (r, v') →
      ∀ m ∈ ms, m.isMapEntry = false → m.fullName ∈ v' := by
  induction fuel with
  | zero => intro ms v r v' h; simp [selectStep] at h
  | succ fuel ih =>
    intro ms v r v' h m hm hme
    cases ms with
    | nil => simp at hm
    | cons message rest =>
      simp only [selectStep] at h
      rcases List.mem_cons.mp hm with rfl | hm
      · rw [if_neg (by simp [hme])] at h
        rw [if_pos (shouldGenerate_forced _)] at h
        simp only [Option.bind_eq_some, Option.some.injEq, Prod.mk.injEq] at h
        obtain ⟨s1, hs1, s2, hs2, s3, hs3, -, hv⟩ := h
        subst hv
        have hmem1 : m.fullName ∈ s1.2 := by
          by_cases hc : v.contains m.fullName = true
          · rw [if_pos hc] at hs1
            simp only [Option.some.injEq] at hs1
            subst hs1
            simpa using hc
          · rw [if_neg hc] at hs1
            simp only [Option.bind_eq_some, Option.some.injEq] at hs1
            obtain ⟨dr, hdr, hs1⟩ := hs1
            subst hs1
            exact selectStep_visited_mono env fuel _ _ _ _ hdr (List.mem_cons_self _ _)
        have hmem2 : m.fullName ∈ s2.2 := by
          by_cases hne : m.nested.isEmpty = true
          · rw [if_pos hne] at hs2
            simp only [Option.some.injEq] at hs2
            subst hs2
            exact hmem1
          · rw [if_neg hne] at hs2
            exact selectStep_visited_mono env fuel _ _ _ _ hs2 hmem1
        exact selectStep_visited_mono env fuel _ _ _ _ hs3 hmem2
      · -- m comes from the tail
        by_cases hme2 : message.isMapEntry = true
        · rw [if_pos hme2] at h
          exact ih _ _ _ _ h m hm hme
        · rw [if_neg hme2] at h
          rw [if_pos (shouldGenerate_forced _)] at h
          simp only [Option.bind_eq_some, Option.some.injEq, Prod.mk.injEq] at h
          obtain ⟨s1, hs1, s2, hs2, s3, hs3, -, hv⟩ := h
          subst hv
          exact ih _ _ _ _ hs3 m hm hme

/-- The dependency loop for a field list puts every message-kind field
dependency (and, for maps, every synthetic-pair value message) into the
visited set. -/
theorem selectStep_deps_mem (env : List Message) (fuel : Nat) :
    ∀ (fs : List FieldD) (v : List String) (r : List Message) (v' : List String),
      selectStep env fuel (SelTask.deps fs) v = some (r, v') →
      ∀ f ∈ fs, f.kind = messageKind →
        ((f.isMap = false → ∀ dm, f.message.bind (lookupMsg env) = some dm →
            dm.isMapEntry = false → dm.fullName ∈ v') ∧
         (f.isMap = true → f.mapValueKind = messageKind →
            ∀ vm, mapEntryValueMessage env f = some vm → vm.isMapEntry = false →
              vm.fullName ∈ v')) := by
  induction fuel with
  | zero => intro fs v r v' h; simp [selectStep] at h
  | succ fuel ih =>
    intro fs v r v' h f hf hk
    cases fs with
    | nil => simp at hf
    | cons field rest =>
      simp only [selectStep] at h
      rcases List.mem_cons.mp hf with rfl | hf
      · -- the head field itself
        rw [if_pos hk] at h
        constructor
        · intro hm dm hdm hdme
          rw [if_neg (by simp [hm])] at h
          rw [hdm] at h
          simp only [Option.bind_eq_some, Option.some.injEq, Prod.mk.injEq] at h
          obtain ⟨s1, hs1, s2, hs2, -, hv⟩ := h
          subst hv
          have : dm.fullName ∈ s1.2 :=
            selectStep_forced_mem env fuel _ _ _ _ hs1 dm (by simp) hdme
          exact selectStep_visited_mono env fuel _ _ _ _ hs2 this
        · intro hm hvk vm hvm hvme
          rw [if_pos hm, if_pos hvk, hvm] at h
          simp only [Option.bind_eq_some, Option.some.injEq, Prod.mk.injEq] at h
          obtain ⟨s1, hs1, s2, hs2, -, hv⟩ := h
          subst hv
          have : vm.fullName ∈ s1.2 :=
            selectStep_forced_mem env fuel _ _ _ _ hs1 vm (by simp) hvme
          exact selectStep_visited_mono env fuel _ _ _ _ hs2 this
      · -- a tail field: find the tail call in each branch
        by_cases hk1 : field.kind = messageKind
        · rw [if_pos hk1] at h
          by_cases hm1 : field.isMap = true
          · rw [if_pos hm1] at h
            by_cases hvk1 : field.mapValueKind = messageKind
            · rw [if_pos hvk1] at h
              cases hmv : mapEntryValueMessage env field with
              | none =>
                rw [hmv] at h
                exact ih _ _ _ _ h f hf hk
              | some valueMsg =>
                rw [hmv] at h
                simp only [Option.bind_eq_some, Option.some.injEq, Prod.mk.injEq] at h
                obtain ⟨s1, hs1, s2, hs2, -, hv⟩ := h
                subst hv
                exact ih _ _ _ _ hs2 f hf hk
            · rw [if_neg hvk1] at h
              exact ih _ _ _ _ h f hf hk
          · rw [if_neg hm1] at h
            cases hmv : field.message.bind (lookupMsg env) with
            | none =>
              rw [hmv] at h
              exact ih _ _ _ _ h f hf hk
            | some depMsg =>
              rw [hmv] at h
              simp only [Option.bind_eq_some, Option.some.injEq, Prod.mk.injEq] at h
              obtain ⟨s1, hs1, s2, hs2, -, hv⟩ := h
              subst hv
              exact ih _ _ _ _ hs2 f hf hk
        · rw [if_neg hk1] at h
          exact ih _ _ _ _ h f hf hk

/-- Every collected message's name is in the final visited set. -/
theorem selectStep_res_names (env : List Message) (fuel : Nat) :
    ∀ (t : SelTask) (v : List String) (r : List Message) (v' : List String),
      selectStep env fuel t v = some (r, v') →
      ∀ m ∈ r, m.fullName ∈ v' := by
  induction fuel with
  | zero => intro t v r v' h; simp [selectStep] at h
  | succ fuel ih =>
    intro t v r v' h m hm
    cases t with
    | msgs ms d f =>
      cases ms with
      | nil =>
        simp only [selectStep, Option.some.injEq, Prod.mk.injEq] at h
        rw [← h.1] at hm
        simp at hm
      | cons message rest =>
        simp only [selectStep] at h
        by_cases hme : message.isMapEntry = true
        · rw [if_pos hme] at h
          exact ih _ _ _ _ h m hm
        · rw [if_neg hme] at h
          by_cases hsg : shouldGenerate d f message.genOpt = true
          · rw [if_pos hsg] at h
            simp only [Option.bind_eq_some, Option.some.injEq, Prod.mk.injEq] at h
            obtain ⟨s1, hs1, s2, hs2, s3, hs3, hr, hv⟩ := h
            subst hv
            subst hr
            rcases List.mem_append.mp hm with hm12 | hm3
            · rcases List.mem_append.mp hm12 with hm1 | hm2
              · -- m ∈ s1.1
                have hmem1 : m.fullName ∈ s1.2 := by
                  by_cases hc : v.contains message.fullName = true
                  · rw [if_pos hc] at hs1
                    simp only [Option.some.injEq] at hs1
                    subst hs1
                    simp at hm1
                  · rw [if_neg hc] at hs1
                    simp only [Option.bind_eq_some, Option.some.injEq] at hs1
                    obtain ⟨dr, hdr, hs1⟩ := hs1
                    subst hs1
                    rcases List.mem_cons.mp hm1 with rfl | hm1
                    · exact selectStep_visited_mono env fuel _ _ _ _ hdr
                        (List.mem_cons_self _ _)
                    · exact ih _ _ _ _ hdr m hm1
                have hmem2 : s1.2 ⊆ s2.2 := by
                  by_cases hne : message.nested.isEmpty = true
                  · rw [if_pos hne] at hs2
                    simp only [Option.some.injEq] at hs2
                    subst hs2
                    exact fun x hx => hx
                  · rw [if_neg hne] at hs2
                    exact selectStep_visited_mono env fuel _ _ _ _ hs2
                exact selectStep_visited_mono env fuel _ _ _ _ hs3 (hmem2 hmem1)
              · -- m ∈ s2.1
                have hmem2 : m.fullName ∈ s2.2 := by
                  by_cases hne : message.nested.isEmpty = true
                  · rw [if_pos hne] at hs2
                    simp only [Option.some.injEq] at hs2
                    subst hs2
                    simp at hm2
                  · rw [if_neg hne] at hs2
                    exact ih _ _ _ _ hs2 m hm2
                exact selectStep_visited_mono env fuel _ _ _ _ hs3 hmem2
            · exact ih _ _ _ _ hs3 m hm3
          · rw [if_neg hsg] at h
            exact ih _ _ _ _ h m hm
    | deps fs =>
      cases fs with
      | nil =>
        simp only [selectStep, Option.some.injEq, Prod.mk.injEq] at h
        rw [← h.1] at hm
        simp at hm
      | cons field rest =>
        simp only [selectStep] at h
        by_cases hk : field.kind = messageKind
        · rw [if_pos hk] at h
          by_cases hm1 : field.isMap = true
          · rw [if_pos hm1] at h
            by_cases hvk : field.mapValueKind = messageKind
            · rw [if_pos hvk] at h
              cases hmv : mapEntryValueMessage env field with
              | none =>
                rw [hmv] at h
                exact ih _ _ _ _ h m hm
              | some valueMsg =>
                rw [hmv] at h
                simp only [Option.bind_eq_some, Option.some.injEq, Prod.mk.injEq] at h
                obtain ⟨s1, hs1, s2, hs2, hr, hv⟩ := h
                subst hv
                subst hr
                rcases List.mem_append.mp hm with hm1' | hm2'
                · exact selectStep_visited_mono env fuel _ _ _ _ hs2
                    (ih _ _ _ _ hs1 m hm1')
                · exact ih _ _ _ _ hs2 m hm2'
            · rw [if_neg hvk] at h
              exact ih _ _ _ _ h m hm
          · rw [if_neg hm1] at h
            cases hmv : field.message.bind (lookupMsg env) with
            | none =>
              rw [hmv] at h
              exact ih _ _ _ _ h m hm
            | some depMsg =>
              rw [hmv] at h
              simp only [Option.bind_eq_some, Option.some.injEq, Prod.mk.injEq] at h
              obtain ⟨s1, hs1, s2, hs2, hr, hv⟩ := h
              subst hv
              subst hr
              rcases List.mem_append.mp hm with hm1' | hm2'
              · exact selectStep_visited_mono env fuel _ _ _ _ hs2
                  (ih _ _ _ _ hs1 m hm1')
              · exact ih _ _ _ _ hs2 m hm2'
        · rw [if_neg hk] at h
          exact ih _ _ _ _ h m hm

/-- Every name in the final visited set was either visited before the
call or belongs to a collected message. -/
theorem selectStep_visited_from (env : List Message) (fuel : Nat) :
    ∀ (t : SelTask) (v : List String) (r : List Message) (v' : List String),
      selectStep env fuel t v = some (r, v') →
      ∀ x ∈ v', x ∈ v ∨ x ∈ r.map Message.fullName := by
  induction fuel with
  | zero => intro t v r v' h; simp [selectStep] at h
  | succ fuel ih =>
    intro t v r v' h x hx
    cases t with
    | msgs ms d f =>
      cases ms with
      | nil =>
        simp only [selectStep, Option.some.injEq, Prod.mk.injEq] at h
        rw [← h.2] at hx
        exact Or.inl hx
      | cons message rest =>
        simp only [selectStep] at h
        by_cases hme : message.isMapEntry = true
        · rw [if_pos hme] at h
          exact ih _ _ _ _ h x hx
        · rw [if_neg hme] at h
          by_cases hsg : shouldGenerate d f message.genOpt = true
          · rw [if_pos hsg] at h
            simp only [Option.bind_eq_some, Option.some.injEq, Prod.mk.injEq] at h
            obtain ⟨s1, hs1, s2, hs2, s3, hs3, hr, hv⟩ := h
            subst hv
            subst hr
            simp only [List.map_append, List.mem_append]
            rcases ih _ _ _ _ hs3 x hx with hx2 | hx3
            · have hstep2 : x ∈ s1.2 ∨ x ∈ s2.1.map Message.fullName := by
                by_cases hne : message.nested.isEmpty = true
                · rw [if_pos hne] at hs2
                  simp only [Option.some.injEq] at hs2
                  subst hs2
                  exact Or.inl hx2
                · rw [if_neg hne] at hs2
                  exact ih _ _ _ _ hs2 x hx2
              rcases hstep2 with hx1 | hx2'
              · have hstep1 : x ∈ v ∨ x ∈ s1.1.map Message.fullName := by
                  by_cases hc : v.contains message.fullName = true
                  · rw [if_pos hc] at hs1
                    simp only [Option.some.injEq] at hs1
                    subst hs1
                    exact Or.inl hx1
                  · rw [if_neg hc] at hs1
                    simp only [Option.bind_eq_some, Option.some.injEq] at hs1
                    obtain ⟨dr, hdr, hs1⟩ := hs1
                    subst hs1
                    rcases ih _ _ _ _ hdr x hx1 with hxc | hxd
                    · rcases List.mem_cons.mp hxc with rfl | hxv
                      · exact Or.inr (by simp)
                      · exact Or.inl hxv
                    · exact Or.inr (by simp [hxd])
                rcases hstep1 with hv1 | hn1
                · exact Or.inl hv1
                · exact Or.inr (Or.inl (Or.inl hn1))
              · exact Or.inr (Or.inl (Or.inr hx2'))
            · exact Or.inr (Or.inr hx3)
          · rw [if_neg hsg] at h
            exact ih _ _ _ _ h x hx
    | deps fs =>
      cases fs with
      | nil =>
        simp only [selectStep, Option.some.injEq, Prod.mk.injEq] at h
        rw [← h.2] at hx
        exact Or.inl hx
      | cons field rest =>
        simp only [selectStep] at h
        by_cases hk : field.kind = messageKind
        · rw [if_pos hk] at h
          by_cases hm1 : field.isMap = true
          · rw [if_pos hm1] at h
            by_cases hvk : field.mapValueKind = messageKind
            · rw [if_pos hvk] at h
              cases hmv : mapEntryValueMessage env field with
              | none =>
                rw [hmv] at h
                exact ih _ _ _ _ h x hx
              | some valueMsg =>
                rw [hmv] at h
                simp only [Option.bind_eq_some, Option.some.injEq, Prod.mk.injEq] at h
                obtain ⟨s1, hs1, s2, hs2, hr, hv⟩ := h
                subst hv
                subst hr
                simp only [List.map_append, List.mem_append]
                rcases ih _ _ _ _ hs2 x hx with hx1 | hx2
                · rcases ih _ _ _ _ hs1 x hx1 with hxv | hxn
                  · exact Or.inl hxv
                  · exact Or.inr (Or.inl hxn)
                · exact Or.inr (Or.inr hx2)
            · rw [if_neg hvk] at h
              exact ih _ _ _ _ h x hx
          · rw [if_neg hm1] at h
            cases hmv : field.message.bind (lookupMsg env) with
            | none =>
              rw [hmv] at h
              exact ih _ _ _ _ h x hx
            | some depMsg =>
              rw [hmv] at h
              simp only [Option.bind_eq_some, Option.some.injEq, Prod.mk.injEq] at h
              obtain ⟨s1, hs1, s2, hs2, hr, hv⟩ := h
              subst hv
              subst hr
              simp only [List.map_append, List.mem_append]
              rcases ih _ _ _ _ hs2 x hx with hx1 | hx2
              · rcases ih _ _ _ _ hs1 x hx1 with hxv | hxn
                · exact Or.inl hxv
                · exact Or.inr (Or.inl hxn)
              · exact Or.inr (Or.inr hx2)
        · rw [if_neg hk] at h
          exact ih _ _ _ _ h x hx

/-- Closure at a message is monotone in the selected set. -/
theorem msgClosedAt_mono (env : List Message) (m : Message) (S S' : List String)
    (h : msgClosedAt env m S) (hss : S ⊆ S') : msgClosedAt env m S' := by
  obtain ⟨h1, h2, h3⟩ := h
  exact ⟨fun f hf hk hm dm hdm hdme => hss (h1 f hf hk hm dm hdm hdme),
         fun f hf hk hm hvk vm hvm hvme => hss (h2 f hf hk hm hvk vm hvm hvme),
         fun n hn nm hnm hnme => hss (h3 n hn nm hnm hnme)⟩

/-- Main selection invariant: every collected message is closed with
respect to the final visited set. -/
theorem selectStep_closed (env : List Message) (fuel : Nat) :
    ∀ (t : SelTask) (v : List String) (r : List Message) (v' : List String),
      selectStep env fuel t v = some (r, v') →
      ∀ m ∈ r, msgClosedAt env m v' := by
  induction fuel with
  | zero => intro t v r v' h; simp [selectStep] at h
  | succ fuel ih =>
    intro t v r v' h m hm
    cases t with
    | msgs ms d f =>
      cases ms with
      | nil =>
        simp only [selectStep, Option.some.injEq, Prod.mk.injEq] at h
        rw [← h.1] at hm
        simp at hm
      | cons message rest =>
        simp only [selectStep] at h
        by_cases hme : message.isMapEntry = true
        · rw [if_pos hme] at h
          exact ih _ _ _ _ h m hm
        · rw [if_neg hme] at h
          by_cases hsg : shouldGenerate d f message.genOpt = true
          · rw [if_pos hsg] at h
            simp only [Option.bind_eq_some, Option.some.injEq, Prod.mk.injEq] at h
            obtain ⟨s1, hs1, s2, hs2, s3, hs3, hr, hv⟩ := h
            subst hv
            subst hr
            have hsub2 : s1.2 ⊆ s2.2 := by
              by_cases hne : message.nested.isEmpty = true
              · rw [if_pos hne] at hs2
                simp only [Option.some.injEq] at hs2
                subst hs2
                exact fun x hx => hx
              · rw [if_neg hne] at hs2
                exact selectStep_visited_mono env fuel _ _ _ _ hs2
            have hsub3 : s2.2 ⊆ s3.2 := selectStep_visited_mono env fuel _ _ _ _ hs3
            rcases List.mem_append.mp hm with hm12 | hm3
            · rcases List.mem_append.mp hm12 with hm1 | hm2
              · -- m ∈ s1.1 : either the head message or a dependency result
                by_cases hc : v.contains message.fullName = true
                · rw [if_pos hc] at hs1
                  simp only [Option.some.injEq] at hs1
                  subst hs1
                  simp at hm1
                · rw [if_neg hc] at hs1
                  simp only [Option.bind_eq_some, Option.some.injEq] at hs1
                  obtain ⟨dr, hdr, hs1⟩ := hs1
                  subst hs1
                  rcases List.mem_cons.mp hm1 with rfl | hm1
                  · -- m = message: its deps come from the deps run, its
                    -- nested types from the forced nested run
                    refine ⟨?_, ?_, ?_⟩
                    · intro fd hfd hk hmap dm hdm hdme
                      have := (selectStep_deps_mem env fuel _ _ _ _ hdr fd hfd hk).1
                        hmap dm hdm hdme
                      exact hsub3 (hsub2 this)
                    · intro fd hfd hk hmap hvk vm hvm hvme
                      have := (selectStep_deps_mem env fuel _ _ _ _ hdr fd hfd hk).2
                        hmap hvk vm hvm hvme
                      exact hsub3 (hsub2 this)
                    · intro n hn nm hnm hnme
                      by_cases hne : m.nested.isEmpty = true
                      · have : m.nested = [] := by simpa using hne
                        rw [this] at hn
                        simp at hn
                      · rw [if_neg hne] at hs2
                        have hnm2 : nm ∈ resolveAll env m.nested :=
                          List.mem_filterMap.mpr ⟨n, hn, hnm⟩
                        exact hsub3
                          (selectStep_forced_mem env fuel _ _ _ _ hs2 nm hnm2 hnme)
                  · exact msgClosedAt_mono env m _ _ (ih _ _ _ _ hdr m hm1)
                      (fun x hx => hsub3 (hsub2 hx))
              · -- m ∈ s2.1 : nested run result
                by_cases hne : message.nested.isEmpty = true
                · rw [if_pos hne] at hs2
                  simp only [Option.some.injEq] at hs2
                  subst hs2
                  simp at hm2
                · rw [if_neg hne] at hs2
                  exact msgClosedAt_mono env m _ _ (ih _ _ _ _ hs2 m hm2) hsub3
            · exact ih _ _ _ _ hs3 m hm3
          · rw [if_neg hsg] at h
            exact ih _ _ _ _ h m hm
    | deps fs =>
      cases fs with
      | nil =>
        simp only [selectStep, Option.some.injEq, Prod.mk.injEq] at h
        rw [← h.1] at hm
        simp at hm
      | cons field rest =>
        simp only [selectStep] at h
        by_cases hk : field.kind = messageKind
        · rw [if_pos hk] at h
          by_cases hm1 : field.isMap = true
          · rw [if_pos hm1] at h
            by_cases hvk : field.mapValueKind = messageKind
            · rw [if_pos hvk] at h
              cases hmv : mapEntryValueMessage env field with
              | none =>
                rw [hmv] at h
                exact ih _ _ _ _ h m hm
              | some valueMsg =>
                rw [hmv] at h
                simp only [Option.bind_eq_some, Option.some.injEq, Prod.mk.injEq] at h
                obtain ⟨s1, hs1, s2, hs2, hr, hv⟩ := h
                subst hv
                subst hr
                rcases List.mem_append.mp hm with hma | hmb
                · exact msgClosedAt_mono env m _ _ (ih _ _ _ _ hs1 m hma)
                    (selectStep_visited_mono env fuel _ _ _ _ hs2)
                · exact ih _ _ _ _ hs2 m hmb
            · rw [if_neg hvk] at h
              exact ih _ _ _ _ h m hm
          · rw [if_neg hm1] at h
            cases hmv : field.message.bind (lookupMsg env) with
            | none =>
              rw [hmv] at h
              exact ih _ _ _ _ h m hm
            | some depMsg =>
              rw [hmv] at h
              simp only [Option.bind_eq_some, Option.some.injEq, Prod.mk.injEq] at h
              obtain ⟨s1, hs1, s2, hs2, hr, hv⟩ := h
              subst hv
              subst hr
              rcases List.mem_append.mp hm with hma | hmb
              · exact msgClosedAt_mono env m _ _ (ih _ _ _ _ hs1 m hma)
                  (selectStep_visited_mono env fuel _ _ _ _ hs2)
              · exact ih _ _ _ _ hs2 m hmb
        · rw [if_neg hk] at h
          exact ih _ _ _ _ h m hm

/-! ## C1: closure completeness of selection -/

/-- **C1.** Every message selected by the selection engine is closed:
its message-kind field dependencies (for maps, the synthetic pair's
value message) and its nested non-map-entry messages are all in the
selected set; forced selection ignores an explicit `generate=false`
override (the inherited default wins); and no run ever removes a name
from the visited set, so an already-selected type is never downgraded. -/
theorem selection_closure_complete (env : List Message) (fuel : Nat) (msgs : List Message)
    (dflt : Bool) (res : List Message) (vfin : List String)
    (h : getMessages env fuel msgs dflt = some (res, vfin)) :
    (∀ m ∈ res, msgClosedAt env m (res.map Message.fullName)) ∧
    (∀ d : Bool, shouldGenerate d true (some false) = d) ∧
    (∀ (fuel' : Nat) (t : SelTask) (v : List String) (r : List Message) (v' : List String),
      selectStep env fuel' t v = some (r, v') → v ⊆ v') := by
  refine ⟨?_, ?_, ?_⟩
  · intro m hm
    have hclosed := selectStep_closed env fuel _ _ _ _ h m hm
    refine msgClosedAt_mono env m vfin _ hclosed ?_
    intro x hx
    rcases selectStep_visited_from env fuel _ _ _ _ h x hx with hx0 | hxn
    · simp at hx0
    · exact hxn
  · intro d
    cases d <;> rfl
  · intro fuel' t v r v' h'
    exact selectStep_visited_mono env fuel' t v r v' h'

/-- Witness for C1: a parent with a message-field dependency, a map
field with message values, and a nested child carrying an explicit
`generate=false`; all of them are selected. -/
theorem selection_closure_complete_witness :
    (∀ m ∈ [parentMsgC1, depMsgC1, valueMsgC1, childMsgC1],
      msgClosedAt envC1 m
        ([parentMsgC1, depMsgC1, valueMsgC1, childMsgC1].map Message.fullName)) ∧
    (∀ d : Bool, shouldGenerate d true (some false) = d) ∧
    (∀ (fuel' : Nat) (t : SelTask) (v : List String) (r : List Message) (v' : List String),
      selectStep envC1 fuel' t v = some (r, v') → v ⊆ v') :=
  selection_closure_complete envC1 20 [parentMsgC1] true
    [parentMsgC1, depMsgC1, valueMsgC1, childMsgC1]
    ["pkg.Parent.Child", "pkg.Val", "pkg.Dep", "pkg.Parent"] (by rfl)

/-! ## Registry (association-list) lemmas -/

theorem hasKey_cons (p : String × Schema) (rest : Defs) (k : String) :
    hasKey (p :: rest) k = (p.1 == k || hasKey rest k) := by
  cases hp : (p.1 == k) <;> simp [hasKey, List.find?_cons, hp]

theorem lookupDef_cons (p : String × Schema) (rest : Defs) (k : String) :
    lookupDef (p :: rest) k = if p.1 == k then some p.2 else lookupDef rest k := by
  cases hp : (p.1 == k) <;> simp [lookupDef, List.find?_cons, hp]

theorem hasKey_append (defs l : Defs) (k : String) :
    hasKey (defs ++ l) k = (hasKey defs k || hasKey l k) := by
  induction defs with
  | nil => simp [hasKey]
  | cons p rest ih =>
    rw [List.cons_append, hasKey_cons, hasKey_cons, ih, Bool.or_assoc]

theorem lookupDef_append_left (defs l : Defs) (k : String) (h : hasKey defs k = true) :
    lookupDef (defs ++ l) k = lookupDef defs k := by
  induction defs with
  | nil => simp [hasKey] at h
  | cons p rest ih =>
    rw [List.cons_append, lookupDef_cons, lookupDef_cons]
    by_cases hp : (p.1 == k) = true
    · rw [if_pos hp, if_pos hp]
    · rw [if_neg hp, if_neg hp]
      apply ih
      rw [hasKey_cons] at h
      simpa [hp] using h

theorem lookupDef_append_fresh (defs : Defs) (k : String) (e : Schema)
    (h : hasKey defs k = false) :
    lookupDef (defs ++ [(k, e)]) k = some e := by
  induction defs with
  | nil => simp [lookupDef, List.find?_cons]
  | cons p rest ih =>
    rw [List.cons_append, lookupDef_cons]
    rw [hasKey_cons] at h
    cases hp : (p.1 == k) with
    | true => rw [hp] at h; simp at h
    | false =>
      rw [if_neg (by simp [hp])]
      exact ih (by simpa [hp] using h)

theorem hasKey_updateDefAt (defs : Defs) (k2 : String) (g : Schema → Schema) (k : String) :
    hasKey (updateDefAt defs k2 g) k = hasKey defs k := by
  induction defs with
  | nil => rfl
  | cons p rest ih =>
    simp only [updateDefAt, List.map_cons]
    by_cases hp : (p.1 == k2) = true
    · rw [if_pos hp, hasKey_cons, hasKey_cons]
      show (p.1 == k || hasKey (updateDefAt rest k2 g) k) = _
      rw [ih]
    · rw [if_neg hp, hasKey_cons, hasKey_cons]
      show (p.1 == k || hasKey (updateDefAt rest k2 g) k) = _
      rw [ih]

theorem lookupDef_updateDefAt_self (defs : Defs) (k : String) (g : Schema → Schema) :
    lookupDef (updateDefAt defs k g) k = (lookupDef defs k).map g := by
  induction defs with
  | nil => rfl
  | cons p rest ih =>
    simp only [updateDefAt, List.map_cons]
    by_cases hp : (p.1 == k) = true
    · rw [if_pos hp, lookupDef_cons, lookupDef_cons]
      simp only [hp, if_true]
      rfl
    · rw [if_neg hp, lookupDef_cons, lookupDef_cons]
      simp only [hp]
      show lookupDef (updateDefAt rest k g) k = _
      rw [ih]
      simp

theorem lookupDef_updateDefAt_ne (defs : Defs) (k2 : String) (g : Schema → Schema)
    (k : String) (hne : ¬(k2 == k) = true) :
    lookupDef (updateDefAt defs k2 g) k = lookupDef defs k := by
  induction defs with
  | nil => rfl
  | cons p rest ih =>
    simp only [updateDefAt, List.map_cons]
    by_cases hp : (p.1 == k2) = true
    · have hpk : ¬(p.1 == k) = true := by
        intro hk
        apply hne
        have h1 : p.1 = k2 := by simpa using hp
        have h2 : p.1 = k := by simpa using hk
        simp [← h1, h2]
      rw [if_pos hp, lookupDef_cons, lookupDef_cons]
      simp only [hpk]
      show lookupDef (updateDefAt rest k2 g) k = _
      rw [ih]
      simp
    · rw [if_neg hp, lookupDef_cons, lookupDef_cons]
      by_cases hpk : (p.1 == k) = true
      · rw [if_pos hpk, if_pos hpk]
      · rw [if_neg hpk, if_neg hpk]
        exact ih

theorem setPropAt_eq_updateDefAt (defs : Defs) (k n : String) (v : Schema) :
    setPropAt defs k n v = updateDefAt defs k (fun e => e.setProp n v) := rfl

/-! ## Schema mutation lemmas -/

theorem Schema.setProp_type (e : Schema) (n : String) (v : Schema) :
    (e.setProp n v).type = e.type := by cases e; rfl

theorem Schema.setProp_required (e : Schema) (n : String) (v : Schema) :
    (e.setProp n v).required = e.required := by cases e; rfl

theorem Schema.setProp_oneOf (e : Schema) (n : String) (v : Schema) :
    (e.setProp n v).oneOf = e.oneOf := by cases e; rfl

theorem Schema.setProp_allOf (e : Schema) (n : String) (v : Schema) :
    (e.setProp n v).allOf = e.allOf := by cases e; rfl

theorem Schema.setProp_properties (e : Schema) (n : String) (v : Schema) :
    (e.setProp n v).properties = upsertProp e.properties n v := by cases e; rfl

theorem Schema.setOneOf_type (e : Schema) (l : List Schema) :
    (e.setOneOf l).type = e.type := by cases e; rfl

theorem Schema.setOneOf_required (e : Schema) (l : List Schema) :
    (e.setOneOf l).required = e.required := by cases e; rfl

theorem Schema.setOneOf_properties (e : Schema) (l : List Schema) :
    (e.setOneOf l).properties = e.properties := by cases e; rfl

theorem Schema.setOneOf_oneOf (e : Schema) (l : List Schema) :
    (e.setOneOf l).oneOf = l := by cases e; rfl

theorem Schema.setOneOf_allOf (e : Schema) (l : List Schema) :
    (e.setOneOf l).allOf = e.allOf := by cases e; rfl

theorem Schema.setAllOf_type (e : Schema) (l : List Schema) :
    (e.setAllOf l).type = e.type := by cases e; rfl

theorem Schema.setAllOf_required (e : Schema) (l : List Schema) :
    (e.setAllOf l).required = e.required := by cases e; rfl

theorem Schema.setAllOf_properties (e : Schema) (l : List Schema) :
    (e.setAllOf l).properties = e.properties := by cases e; rfl

theorem Schema.setAllOf_allOf (e : Schema) (l : List Schema) :
    (e.setAllOf l).allOf = l := by cases e; rfl

theorem Schema.setAllOf_oneOf (e : Schema) (l : List Schema) :
    (e.setAllOf l).oneOf = e.oneOf := by cases e; rfl

theorem applyOneofConstraints_type (m : Message) (e : Schema) :
    (applyOneofConstraints m e).type = e.type := by
  unfold applyOneofConstraints
  dsimp only
  split
  · rfl
  · exact Schema.setOneOf_type e _
  · exact Schema.setAllOf_type e _

theorem applyOneofConstraints_required (m : Message) (e : Schema) :
    (applyOneofConstraints m e).required = e.required := by
  unfold applyOneofConstraints
  dsimp only
  split
  · rfl
  · exact Schema.setOneOf_required e _
  · exact Schema.setAllOf_required e _

theorem applyOneofConstraints_properties (m : Message) (e : Schema) :
    (applyOneofConstraints m e).properties = e.properties := by
  unfold applyOneofConstraints
  dsimp only
  split
  · rfl
  · exact Schema.setOneOf_properties e _
  · exact Schema.setAllOf_properties e _

/-! ## Basic synthesizer lemmas -/

/-- A builder call always returns a pure reference to its message's
fully-qualified name. -/
theorem synthStep_msg_ref (env : List Message) (fuel : Nat) (m : Message) (defs : Defs)
    (s : Schema) (d' : Defs)
    (h : synthStep env fuel (SynthTask.msg m) defs = some (s, d')) :
    s = refSchema m.fullName := by
  cases fuel with
  | zero => simp [synthStep] at h
  | succ fuel =>
    simp only [synthStep] at h
    by_cases hk : hasKey defs m.fullName = true
    · rw [if_pos hk] at h
      simp only [Option.some.injEq, Prod.mk.injEq] at h
      exact h.1.symm
    · rw [if_neg hk] at h
      simp only [Option.bind_eq_some, Option.some.injEq, Prod.mk.injEq] at h
      obtain ⟨s2, hs2, hr, -⟩ := h
      exact hr.symm

/-- Registered keys are never removed. -/
theorem synthStep_keys_mono (env : List Message) (fuel : Nat) :
    ∀ (t : SynthTask) (defs : Defs) (s : Schema) (d' : Defs),
      synthStep env fuel t defs = some (s, d') →
      ∀ k, hasKey defs k = true → hasKey d' k = true := by
  induction fuel with
  | zero => intro t defs s d' h; simp [synthStep] at h
  | succ fuel ih =>
    intro t defs s d' h k hk
    cases t with
    | msg m =>
      simp only [synthStep] at h
      by_cases hkm : hasKey defs m.fullName = true
      · rw [if_pos hkm] at h
        simp only [Option.some.injEq, Prod.mk.injEq] at h
        rw [← h.2]
        exact hk
      · rw [if_neg hkm] at h
        simp only [Option.bind_eq_some, Option.some.injEq, Prod.mk.injEq] at h
        obtain ⟨s2, hs2, -, hd⟩ := h
        subst hd
        rw [hasKey_updateDefAt]
        exact ih _ _ _ _ hs2 k (by rw [hasKey_append, hk]; rfl)
    | flds key fs =>
      cases fs with
      | nil =>
        simp only [synthStep, Option.some.injEq, Prod.mk.injEq] at h
        rw [← h.2]
        exact hk
      | cons f rest =>
        simp only [synthStep] at h
        by_cases hig : getIgnore f.opts = true
        · rw [if_pos hig] at h
          exact ih _ _ _ _ h k hk
        · rw [if_neg hig] at h
          cases hdep : depNameOf (fieldConfig env f) f.opts with
          | none =>
            rw [hdep] at h
            refine ih _ _ _ _ h k ?_
            rw [setPropAt_eq_updateDefAt, hasKey_updateDefAt]
            exact hk
          | some depName =>
            rw [hdep] at h
            simp only [Option.bind_eq_some] at h
            obtain ⟨depMsg, hdm, s2, hs2, h⟩ := h
            refine ih _ _ _ _ h k ?_
            rw [setPropAt_eq_updateDefAt, hasKey_updateDefAt]
            exact ih _ _ _ _ hs2 k hk

/-- Entries present before a call are not modified by it (for a field
loop, except the entry being built). -/
theorem synthStep_entry_frozen (env : List Message) (fuel : Nat) :
    ∀ (t : SynthTask) (defs : Defs) (s : Schema) (d' : Defs),
      synthStep env fuel t defs = some (s, d') →
      ∀ k, hasKey defs k = true →
        (match t with
         | SynthTask.msg _ => True
         | SynthTask.flds key _ => ¬(key == k) = true) →
        lookupDef d' k = lookupDef defs k := by
  induction fuel with
  | zero => intro t defs s d' h; simp [synthStep] at h
  | succ fuel ih =>
    intro t defs s d' h k hk hexc
    cases t with
    | msg m =>
      simp only [synthStep] at h
      by_cases hkm : hasKey defs m.fullName = true
      · rw [if_pos hkm] at h
        simp only [Option.some.injEq, Prod.mk.injEq] at h
        rw [← h.2]
      · rw [if_neg hkm] at h
        simp only [Option.bind_eq_some, Option.some.injEq, Prod.mk.injEq] at h
        obtain ⟨s2, hs2, -, hd⟩ := h
        subst hd
        have hne : ¬(m.fullName == k) = true := by
          intro he
          have : m.fullName = k := by simpa using he
          rw [this] at hkm
          exact hkm hk
        rw [lookupDef_updateDefAt_ne _ _ _ _ hne]
        have h1 := ih _ _ _ _ hs2 k
          (by rw [hasKey_append, hk]; rfl) hne
        rw [h1]
        exact lookupDef_append_left defs _ k hk
    | flds key fs =>
      cases fs with
      | nil =>
        simp only [synthStep, Option.some.injEq, Prod.mk.injEq] at h
        rw [← h.2]
      | cons f rest =>
        simp only [synthStep] at h
        by_cases hig : getIgnore f.opts = true
        · rw [if_pos hig] at h
          exact ih _ _ _ _ h k hk hexc
        · rw [if_neg hig] at h
          cases hdep : depNameOf (fieldConfig env f) f.opts with
          | none =>
            rw [hdep] at h
            have h1 := ih _ _ _ _ h k
              (by rw [setPropAt_eq_updateDefAt, hasKey_updateDefAt]; exact hk) hexc
            rw [h1, setPropAt_eq_updateDefAt, lookupDef_updateDefAt_ne _ _ _ _ hexc]
          | some depName =>
            rw [hdep] at h
            simp only [Option.bind_eq_some] at h
            obtain ⟨depMsg, hdm, s2, hs2, h⟩ := h
            have hk2 : hasKey s2.2 k = true := synthStep_keys_mono env fuel _ _ _ _ hs2 k hk
            have h1 := ih _ _ _ _ h k
              (by rw [setPropAt_eq_updateDefAt, hasKey_updateDefAt]; exact hk2) hexc
            rw [h1, setPropAt_eq_updateDefAt, lookupDef_updateDefAt_ne _ _ _ _ hexc]
            exact ih _ _ _ _ hs2 k hk trivial

/-- A builder call leaves its message's key registered. -/
theorem synthStep_msg_registered (env : List Message) (fuel : Nat) (m : Message)
    (defs : Defs) (s : Schema) (d' : Defs)
    (h : synthStep env fuel (SynthTask.msg m) defs = some (s, d')) :
    hasKey d' m.fullName = true := by
  cases fuel with
  | zero => simp [synthStep] at h
  | succ fuel =>
    simp only [synthStep] at h
    by_cases hk : hasKey defs m.fullName = true
    · rw [if_pos hk] at h
      simp only [Option.some.injEq, Prod.mk.injEq] at h
      rw [← h.2]
      exact hk
    · rw [if_neg hk] at h
      simp only [Option.bind_eq_some, Option.some.injEq, Prod.mk.injEq] at h
      obtain ⟨s2, hs2, -, hd⟩ := h
      subst hd
      rw [hasKey_updateDefAt]
      refine synthStep_keys_mono env fuel _ _ _ _ hs2 m.fullName ?_
      simp [hasKey_append, hasKey, List.find?_cons]

/-- More fuel does not change a successful synthesis run. -/
theorem synthStep_fuel_le (env : List Message) :
    ∀ (fuel fuel' : Nat), fuel ≤ fuel' →
      ∀ (t : SynthTask) (defs : Defs) (r : Schema × Defs),
        synthStep env fuel t defs = some r → synthStep env fuel' t defs = some r := by
  intro fuel
  induction fuel with
  | zero => intro fuel' _ t defs r h; simp [synthStep] at h
  | succ fuel ih =>
    intro fuel' hle t defs r h
    cases fuel' with
    | zero => omega
    | succ fuel2 =>
      have hle2 : fuel ≤ fuel2 := by omega
      cases t with
      | msg m =>
        simp only [synthStep] at h ⊢
        by_cases hk : hasKey defs m.fullName = true
        · rwa [if_pos hk] at h ⊢
        · rw [if_neg hk] at h ⊢
          simp only [Option.bind_eq_some] at h ⊢
          obtain ⟨s2, hs2, h⟩ := h
          exact ⟨s2, ih _ hle2 _ _ _ hs2, h⟩
      | flds key fs =>
        cases fs with
        | nil =>
          simp only [synthStep] at h ⊢
          exact h
        | cons f rest =>
          simp only [synthStep] at h ⊢
          by_cases hig : getIgnore f.opts = true
          · rw [if_pos hig] at h ⊢
            exact ih _ hle2 _ _ _ h
          · rw [if_neg hig] at h ⊢
            cases hdep : depNameOf (fieldConfig env f) f.opts with
            | none =>
              rw [hdep] at h
              exact ih _ hle2 _ _ _ h
            | some depName =>
              rw [hdep] at h
              simp only [Option.bind_eq_some] at h ⊢
              obtain ⟨depMsg, hdm, s2, hs2, h⟩ := h
              exact ⟨depMsg, hdm, s2, ih _ hle2 _ _ _ hs2, ih _ hle2 _ _ _ h⟩

theorem applyFieldProps_cons (env : List Message) (f : FieldD) (fs : List FieldD) (e : Schema) :
    applyFieldProps env (f :: fs) e =
      applyFieldProps env fs
        (if getIgnore f.opts then e
         else
           match fieldPropValue env f with
           | some v => e.setProp (fieldConfig env f).fieldName v
           | none => e) := rfl

/-- The field loop applies exactly `applyFieldProps` to the entry being
built (the builder calls for referenced messages do not touch it). -/
theorem synthStep_flds_props (env : List Message) (fuel : Nat) :
    ∀ (fs : List FieldD) (key : String) (defs : Defs) (s : Schema) (d' : Defs),
      synthStep env fuel (SynthTask.flds key fs) defs = some (s, d') →
      hasKey defs key = true →
      lookupDef d' key = (lookupDef defs key).map (applyFieldProps env fs) := by
  induction fuel with
  | zero => intro fs key defs s d' h; simp [synthStep] at h
  | succ fuel ih =>
    intro fs key defs s d' h hk
    cases fs with
    | nil =>
      simp only [synthStep, Option.some.injEq, Prod.mk.injEq] at h
      rw [← h.2]
      cases lookupDef defs key <;> rfl
    | cons f rest =>
      simp only [synthStep] at h
      by_cases hig : getIgnore f.opts = true
      · rw [if_pos hig] at h
        rw [ih _ _ _ _ _ h hk]
        cases lookupDef defs key with
        | none => rfl
        | some e =>
          simp only [Option.map]
          rw [applyFieldProps_cons, if_pos hig]
      · rw [if_neg hig] at h
        cases hdep : depNameOf (fieldConfig env f) f.opts with
        | none =>
          rw [hdep] at h
          rw [ih _ _ _ _ _ h
            (by rw [setPropAt_eq_updateDefAt, hasKey_updateDefAt]; exact hk)]
          rw [setPropAt_eq_updateDefAt, lookupDef_updateDefAt_self]
          have hfp : fieldPropValue env f =
              some (buildGeneralValue (fieldConfig env f) f.opts none) := by
            simp [fieldPropValue, hdep]
          cases lookupDef defs key with
          | none => rfl
          | some e =>
            simp only [Option.map]
            rw [applyFieldProps_cons, if_neg hig, hfp]
        | some depName =>
          rw [hdep] at h
          simp only [Option.bind_eq_some] at h
          obtain ⟨depMsg, hdm, s2, hs2, h⟩ := h
          obtain ⟨ds, dd⟩ := s2
          have hds : ds = refSchema depMsg.fullName :=
            synthStep_msg_ref env fuel _ _ _ _ hs2
          subst hds
          have hfrozen : lookupDef dd key = lookupDef defs key :=
            synthStep_entry_frozen env fuel _ _ _ _ hs2 key hk trivial
          have hkdd : hasKey dd key = true :=
            synthStep_keys_mono env fuel _ _ _ _ hs2 key hk
          rw [ih _ _ _ _ _ h
            (by rw [setPropAt_eq_updateDefAt, hasKey_updateDefAt]; exact hkdd)]
          rw [setPropAt_eq_updateDefAt, lookupDef_updateDefAt_self, hfrozen]
          have hfp : fieldPropValue env f =
              some (if isDirectMessageRef (fieldConfig env f) f.opts = true
                    then refSchema depMsg.fullName
                    else buildGeneralValue (fieldConfig env f) f.opts
                      (some (refSchema depMsg.fullName))) := by
            simp [fieldPropValue, hdep, hdm]
          cases lookupDef defs key with
          | none => rfl
          | some e =>
            simp only [Option.map]
            rw [applyFieldProps_cons, if_neg hig, hfp]

/-- A fresh builder run installs exactly the schema obtained by
initializing the entry, applying the field loop, and attaching the
oneof constraints. -/
theorem synthStep_msg_entry (env : List Message) (fuel : Nat) (m : Message) (defs : Defs)
    (s : Schema) (d' : Defs)
    (h : synthStep env fuel (SynthTask.msg m) defs = some (s, d'))
    (hfresh : hasKey defs m.fullName = false) :
    lookupDef d' m.fullName =
      some (applyOneofConstraints m (applyFieldProps env m.fields (initEntry m))) := by
  cases fuel with
  | zero => simp [synthStep] at h
  | succ fuel =>
    simp only [synthStep] at h
    rw [if_neg (by simp [hfresh])] at h
    simp only [Option.bind_eq_some, Option.some.injEq, Prod.mk.injEq] at h
    obtain ⟨s2, hs2, -, hd⟩ := h
    subst hd
    obtain ⟨fs2, fd2⟩ := s2
    rw [lookupDef_updateDefAt_self]
    have hk1 : hasKey (defs ++ [(m.fullName, initEntry m)]) m.fullName = true := by
      simp [hasKey_append, hasKey, List.find?_cons]
    have hprops := synthStep_flds_props env fuel _ _ _ _ _ hs2 hk1
    rw [hprops, lookupDef_append_fresh defs _ _ hfresh]
    rfl

/-! ## Termination measure lemmas -/

theorem countMissing_mono (names : List String) (defs d2 : Defs)
    (hmono : ∀ k, hasKey defs k = true → hasKey d2 k = true) :
    (names.filter (fun n => !(hasKey d2 n))).length ≤
      (names.filter (fun n => !(hasKey defs n))).length := by
  induction names with
  | nil => simp
  | cons n rest ih =>
    simp only [List.filter_cons]
    cases h1 : hasKey defs n with
    | true =>
      have h2 : hasKey d2 n = true := hmono n h1
      simpa [h1, h2] using ih
    | false =>
      have hrest := ih
      cases h2 : hasKey d2 n <;> simp [h1, h2] <;> omega

theorem missingCount_le (env : List Message) (defs d2 : Defs)
    (hmono : ∀ k, hasKey defs k = true → hasKey d2 k = true) :
    missingCount env d2 ≤ missingCount env defs :=
  countMissing_mono (env.map Message.fullName) defs d2 hmono

theorem missingCount_updateDefAt (env : List Message) (defs : Defs) (k : String)
    (g : Schema → Schema) :
    missingCount env (updateDefAt defs k g) = missingCount env defs := by
  unfold missingCount
  have hsame : ∀ n, hasKey (updateDefAt defs k g) n = hasKey defs n :=
    fun n => hasKey_updateDefAt defs k g n
  rw [List.filter_congr (fun n _ => by rw [hsame n])]

theorem countMissing_lt (names : List String) (defs : Defs) (k : String) (e : Schema)
    (hmem : k ∈ names) (hfresh : hasKey defs k = false) :
    (names.filter (fun n => !(hasKey (defs ++ [(k, e)]) n))).length <
      (names.filter (fun n => !(hasKey defs n))).length := by
  have happ : ∀ x, hasKey (defs ++ [(k, e)]) x = (hasKey defs x || (k == x)) := by
    intro x
    rw [hasKey_append, hasKey_cons]
    simp [hasKey]
  have hle : ∀ (l : List String),
      (l.filter (fun n => !(hasKey (defs ++ [(k, e)]) n))).length ≤
        (l.filter (fun n => !(hasKey defs n))).length := by
    intro l
    apply countMissing_mono
    intro x hx
    rw [happ x, hx]
    rfl
  induction names with
  | nil => simp at hmem
  | cons n rest ih =>
    simp only [List.filter_cons]
    by_cases hnk : n = k
    · have h1 : hasKey defs n = false := by rw [hnk]; exact hfresh
      have h2 : hasKey (defs ++ [(k, e)]) n = true := by
        rw [happ n, h1, hnk]
        simp
      have hr := hle rest
      simp [h1, h2]
      omega
    · have hkn : (k == n) = false := by
        simp only [beq_eq_false_iff_ne]
        exact fun he => hnk he.symm
      have hmem2 : k ∈ rest := by
        rcases List.mem_cons.mp hmem with h | h
        · exact absurd h.symm hnk
        · exact h
      have hnew : hasKey (defs ++ [(k, e)]) n = hasKey defs n := by
        rw [happ n, hkn, Bool.or_false]
      have hr := ih hmem2
      cases h1 : hasKey defs n with
      | true => simpa [h1, hnew] using hr
      | false =>
        rw [hnew]
        simp [h1]
        omega

theorem missingCount_lt (env : List Message) (defs : Defs) (m : Message)
    (hmem : m ∈ env) (hfresh : hasKey defs m.fullName = false) :
    missingCount env (defs ++ [(m.fullName, initEntry m)]) < missingCount env defs :=
  countMissing_lt (env.map Message.fullName) defs m.fullName (initEntry m)
    (List.mem_map.mpr ⟨m, hmem, rfl⟩) hfresh

theorem lookupMsg_mem (env : List Message) (name : String) (m : Message)
    (h : lookupMsg env name = some m) : m ∈ env :=
  List.mem_of_find?_eq_some h

theorem envResolves_fields (env : List Message) (henv : envResolves env = true)
    (m : Message) (hm : m ∈ env) : ∀ f ∈ m.fields, fieldResolves env f = true := by
  simp only [envResolves, List.all_eq_true] at henv
  intro f hf
  exact henv m hm f hf

/-- Synthesis always succeeds with enough fuel: every builder call on
an environment whose references resolve terminates (the registration-
before-recursion protocol makes the number of unregistered environment
names a strictly decreasing measure). -/
theorem synthStep_success (env : List Message) (henv : envResolves env = true) :
    ∀ (K : Nat) (defs : Defs), missingCount env defs ≤ K →
      ((∀ m ∈ env, ∃ fuel r, synthStep env fuel (SynthTask.msg m) defs = some r) ∧
       (∀ (key : String) (fs : List FieldD),
          (∀ f ∈ fs, fieldResolves env f = true) →
          ∃ fuel r, synthStep env fuel (SynthTask.flds key fs) defs = some r)) := by
  intro K
  induction K using Nat.strong_induction_on with
  | _ K ih =>
    have hA : ∀ defs, missingCount env defs ≤ K →
        ∀ m ∈ env, ∃ fuel r, synthStep env fuel (SynthTask.msg m) defs = some r := by
      intro defs hK m hm
      by_cases hkm : hasKey defs m.fullName = true
      · exact ⟨1, (refSchema m.fullName, defs), by simp [synthStep, hkm]⟩
      · have hkm2 : hasKey defs m.fullName = false := by simpa using hkm
        have hlt := missingCount_lt env defs m hm hkm2
        have hB1 := (ih (K - 1) (by omega) (defs ++ [(m.fullName, initEntry m)]) (by omega)).2
          m.fullName m.fields (envResolves_fields env henv m hm)
        obtain ⟨fuel2, r2, hr2⟩ := hB1
        refine ⟨fuel2 + 1,
          (refSchema m.fullName, updateDefAt r2.2 m.fullName (applyOneofConstraints m)), ?_⟩
        simp [synthStep, hkm, hr2]
    have hB : ∀ (fs : List FieldD), (∀ f ∈ fs, fieldResolves env f = true) →
        ∀ (defs : Defs), missingCount env defs ≤ K → ∀ (key : String),
          ∃ fuel r, synthStep env fuel (SynthTask.flds key fs) defs = some r := by
      intro fs
      induction fs with
      | nil =>
        intro _ defs hK key
        exact ⟨1, (refSchema "", defs), rfl⟩
      | cons f rest ihf =>
        intro hres defs hK key
        by_cases hig : getIgnore f.opts = true
        · obtain ⟨fuel2, r2, hr2⟩ :=
            ihf (fun g hg => hres g (List.mem_cons_of_mem f hg)) defs hK key
          exact ⟨fuel2 + 1, r2, by simp [synthStep, hig, hr2]⟩
        · cases hdep : depNameOf (fieldConfig env f) f.opts with
          | none =>
            have hK2 : missingCount env (setPropAt defs key (fieldConfig env f).fieldName
                (buildGeneralValue (fieldConfig env f) f.opts none)) ≤ K := by
              rw [setPropAt_eq_updateDefAt, missingCount_updateDefAt]
              exact hK
            obtain ⟨fuel2, r2, hr2⟩ :=
              ihf (fun g hg => hres g (List.mem_cons_of_mem f hg)) _ hK2 key
            exact ⟨fuel2 + 1, r2, by simp [synthStep, hig, hdep, hr2]⟩
          | some depName =>
            have hfr := hres f (List.mem_cons_self f rest)
            simp only [fieldResolves, hig, hdep, Bool.false_or] at hfr
            obtain ⟨depMsg, hdm⟩ := Option.isSome_iff_exists.mp hfr
            have hdmem : depMsg ∈ env := lookupMsg_mem env depName depMsg hdm
            obtain ⟨fuelD, rD, hrD⟩ := hA defs hK depMsg hdmem
            obtain ⟨ds, dd⟩ := rD
            have hKdd : missingCount env dd ≤ K :=
              le_trans (missingCount_le env defs dd
                (fun k hk => synthStep_keys_mono env fuelD _ _ _ _ hrD k hk)) hK
            have hK3 : missingCount env (setPropAt dd key (fieldConfig env f).fieldName
                (if isDirectMessageRef (fieldConfig env f) f.opts = true then ds
                 else buildGeneralValue (fieldConfig env f) f.opts (some ds))) ≤ K := by
              rw [setPropAt_eq_updateDefAt, missingCount_updateDefAt]
              exact hKdd
            obtain ⟨fuelT, rT, hrT⟩ :=
              ihf (fun g hg => hres g (List.mem_cons_of_mem f hg)) _ hK3 key
            refine ⟨max fuelD fuelT + 1, rT, ?_⟩
            have hrD2 := synthStep_fuel_le env fuelD (max fuelD fuelT)
              (le_max_left _ _) _ _ _ hrD
            have hrT2 := synthStep_fuel_le env fuelT (max fuelD fuelT)
              (le_max_right _ _) _ _ _ hrT
            simp [synthStep, hig, hdep, hdm, hrD2, hrT2]
    intro defs hK
    exact ⟨hA defs hK, fun key fs hres => hB fs hres defs hK key⟩

/-- Finite-time synthesis for every environment message. -/
theorem synthStep_msg_total (env : List Message) (henv : envResolves env = true)
    (m : Message) (hm : m ∈ env) (defs : Defs) :
    ∃ fuel r, synthStep env fuel (SynthTask.msg m) defs = some r :=
  ((synthStep_success env henv (missingCount env defs) defs le_rfl).1) m hm

/-! ## Property-map lemmas -/

theorem fieldConfig_fieldName (env : List Message) (f : FieldD) :
    (fieldConfig env f).fieldName = getFieldName f := by
  unfold fieldConfig
  split
  · rfl
  · split
    · rfl
    · unfold getScalarSchemaConfig
      dsimp only
      split
      · split <;> rfl
      · split
        · rfl
        · split <;> rfl

theorem lookupProp_upsert_self (props : List (String × Schema)) (n : String) (v : Schema) :
    ((upsertProp props n v).find? (fun p => p.1 == n)).map Prod.snd = some v := by
  induction props with
  | nil => simp [upsertProp, List.find?_cons]
  | cons p rest ih =>
    by_cases hp : (p.1 == n) = true
    · simp [upsertProp, hp, List.find?_cons]
    · simp only [upsertProp]
      rw [if_neg (by simpa using hp)]
      simp [List.find?_cons, hp, ih]

theorem lookupProp_upsert_ne (props : List (String × Schema)) (n : String) (v : Schema)
    (x : String) (hx : ¬(n == x) = true) :
    ((upsertProp props n v).find? (fun p => p.1 == x)).map Prod.snd =
      (props.find? (fun p => p.1 == x)).map Prod.snd := by
  induction props with
  | nil =>
    simp only [upsertProp, List.find?_cons]
    have : (n == x) = false := by simpa using hx
    simp [this]
  | cons p rest ih =>
    by_cases hp : (p.1 == n) = true
    · have hpx : (p.1 == x) = false := by
        have h1 : p.1 = n := by simpa using hp
        subst h1
        simpa using hx
      simp only [upsertProp]
      rw [if_pos (by simpa using hp)]
      simp [List.find?_cons, hpx]
    · simp only [upsertProp]
      rw [if_neg (by simpa using hp)]
      by_cases hpx : (p.1 == x) = true
      · simp [List.find?_cons, hpx]
      · simp [List.find?_cons, hpx, ih]

theorem lookupProp_setProp_self (e : Schema) (n : String) (v : Schema) :
    lookupProp (e.setProp n v) n = some v := by
  rw [lookupProp, Schema.setProp_properties]
  exact lookupProp_upsert_self e.properties n v

theorem lookupProp_setProp_ne (e : Schema) (n : String) (v : Schema) (x : String)
    (hx : ¬(n == x) = true) :
    lookupProp (e.setProp n v) x = lookupProp e x := by
  rw [lookupProp, Schema.setProp_properties, lookupProp]
  exact lookupProp_upsert_ne e.properties n v x hx

/-- An already-set property survives the rest of the field loop, as
long as every later same-named field would write the same value. -/
theorem lookupProp_applyFieldProps_keep (env : List Message) :
    ∀ (fs : List FieldD) (e : Schema) (nm : String) (v : Schema),
      lookupProp e nm = some v →
      (∀ g ∈ fs, getIgnore g.opts = false → g.name = nm → fieldPropValue env g = some v) →
      lookupProp (applyFieldProps env fs e) nm = some v := by
  intro fs
  induction fs with
  | nil => intro e nm v hkeep _; exact hkeep
  | cons g rest ih =>
    intro e nm v hkeep hall
    rw [applyFieldProps_cons]
    by_cases hig : getIgnore g.opts = true
    · rw [if_pos hig]
      exact ih e nm v hkeep (fun g2 hg2 => hall g2 (List.mem_cons_of_mem g hg2))
    · rw [if_neg hig]
      have hig2 : getIgnore g.opts = false := by simpa using hig
      cases hfv : fieldPropValue env g with
      | none =>
        exact ih e nm v hkeep (fun g2 hg2 => hall g2 (List.mem_cons_of_mem g hg2))
      | some w =>
        by_cases hgn : g.name = nm
        · have hw : fieldPropValue env g = some v :=
            hall g (List.mem_cons_self g rest) hig2 hgn
          rw [hfv] at hw
          have hwv := (Option.some.inj hw).symm
          subst hwv
          refine ih _ nm v ?_ (fun g2 hg2 => hall g2 (List.mem_cons_of_mem g hg2))
          rw [fieldConfig_fieldName, getFieldName, hgn]
          exact lookupProp_setProp_self e nm v
        · refine ih _ nm v ?_ (fun g2 hg2 => hall g2 (List.mem_cons_of_mem g hg2))
          rw [fieldConfig_fieldName, getFieldName]
          rw [lookupProp_setProp_ne e g.name w nm (by simpa using hgn)]
          exact hkeep

/-- The field loop stores each non-ignored field's computed value under
its name. -/
theorem lookupProp_applyFieldProps (env : List Message) :
    ∀ (fs : List FieldD) (e : Schema) (nm : String) (v : Schema),
      (∃ f ∈ fs, getIgnore f.opts = false ∧ f.name = nm ∧ fieldPropValue env f = some v) →
      (∀ g ∈ fs, getIgnore g.opts = false → g.name = nm → fieldPropValue env g = some v) →
      lookupProp (applyFieldProps env fs e) nm = some v := by
  intro fs
  induction fs with
  | nil => intro e nm v hex _; simp at hex
  | cons g rest ih =>
    intro e nm v hex hall
    obtain ⟨f, hf, hfig, hfnm, hfv⟩ := hex
    rw [applyFieldProps_cons]
    rcases List.mem_cons.mp hf with rfl | hfrest
    · rw [if_neg (by simp [hfig]), hfv]
      apply lookupProp_applyFieldProps_keep env rest _ nm v
      · rw [fieldConfig_fieldName, getFieldName, hfnm]
        exact lookupProp_setProp_self e nm v
      · exact fun g2 hg2 => hall g2 (List.mem_cons_of_mem f hg2)
    · exact ih _ nm v ⟨f, hfrest, hfig, hfnm, hfv⟩
        (fun g2 hg2 => hall g2 (List.mem_cons_of_mem g hg2))

theorem upsertProp_keys_fresh (props : List (String × Schema)) (n : String) (v : Schema)
    (h : n ∉ props.map Prod.fst) :
    (upsertProp props n v).map Prod.fst = props.map Prod.fst ++ [n] := by
  induction props with
  | nil => rfl
  | cons p rest ih =>
    simp only [List.map_cons, List.mem_cons] at h
    push_neg at h
    have hp : (p.1 == n) = false := by
      simp only [beq_eq_false_iff_ne]
      exact fun he => h.1 he.symm
    simp only [upsertProp]
    rw [if_neg (by simp [hp])]
    simp [List.map_cons, ih h.2]

theorem fieldPropValue_isSome_of_resolves (env : List Message) (f : FieldD)
    (hres : fieldResolves env f = true) (hig : getIgnore f.opts = false) :
    (fieldPropValue env f).isSome = true := by
  simp only [fieldResolves, hig, Bool.false_or] at hres
  unfold fieldPropValue
  cases hdep : depNameOf (fieldConfig env f) f.opts with
  | none => simp [hdep]
  | some depName =>
    simp only [hdep] at hres
    obtain ⟨dm, hdm⟩ := Option.isSome_iff_exists.mp hres
    simp [hdep, hdm]

/-- The property names installed by the field loop are exactly the
names of the non-ignored fields, in declaration order. -/
theorem propKeys_applyFieldProps (env : List Message) :
    ∀ (fs : List FieldD) (e : Schema),
      (∀ f ∈ fs, getIgnore f.opts = false → (fieldPropValue env f).isSome = true) →
      (∀ f ∈ fs, f.name ∉ e.properties.map Prod.fst) →
      (fs.map FieldD.name).Nodup →
      (applyFieldProps env fs e).properties.map Prod.fst =
        e.properties.map Prod.fst ++
          ((fs.filter (fun f => !(getIgnore f.opts))).map FieldD.name) := by
  intro fs
  induction fs with
  | nil => intro e _ _ _; simp [applyFieldProps]
  | cons f rest ih =>
    intro e hsome hfresh hnodup
    have hnodup2 := List.nodup_cons.mp
      (show (f.name :: rest.map FieldD.name).Nodup by simpa using hnodup)
    rw [applyFieldProps_cons]
    by_cases hig : getIgnore f.opts = true
    · rw [if_pos hig]
      rw [ih e (fun g hg => hsome g (List.mem_cons_of_mem _ hg))
           (fun g hg => hfresh g (List.mem_cons_of_mem _ hg)) hnodup2.2]
      simp [List.filter_cons, hig]
    · rw [if_neg hig]
      have hig2 : getIgnore f.opts = false := by simpa using hig
      obtain ⟨v, hv⟩ := Option.isSome_iff_exists.mp
        (hsome f (List.mem_cons_self f rest) hig2)
      rw [hv]
      have hkeys : (e.setProp (fieldConfig env f).fieldName v).properties.map Prod.fst =
          e.properties.map Prod.fst ++ [f.name] := by
        rw [Schema.setProp_properties, fieldConfig_fieldName, getFieldName]
        exact upsertProp_keys_fresh e.properties f.name v
          (hfresh f (List.mem_cons_self f rest))
      have hfresh2 : ∀ g ∈ rest,
          g.name ∉ (e.setProp (fieldConfig env f).fieldName v).properties.map Prod.fst := by
        intro g hg hmem
        rw [hkeys] at hmem
        rcases List.mem_append.mp hmem with hmem2 | hmem2
        · exact hfresh g (List.mem_cons_of_mem _ hg) hmem2
        · have : g.name = f.name := by simpa using hmem2
          exact hnodup2.1 (this ▸ List.mem_map.mpr ⟨g, hg, rfl⟩)
      rw [ih _ (fun g hg => hsome g (List.mem_cons_of_mem _ hg)) hfresh2 hnodup2.2, hkeys]
      simp [List.filter_cons, hig2]

theorem lookupDef_append_cases (defs l : Defs) (k : String) (e : Schema)
    (h : lookupDef (defs ++ l) k = some e) :
    lookupDef defs k = some e ∨ lookupDef l k = some e := by
  induction defs with
  | nil => exact Or.inr h
  | cons p rest ih =>
    rw [List.cons_append, lookupDef_cons] at h
    by_cases hp : (p.1 == k) = true
    · rw [if_pos hp] at h
      left
      rw [lookupDef_cons, if_pos hp]
      exact h
    · rw [if_neg hp] at h
      rcases ih h with h1 | h1
      · left
        rw [lookupDef_cons, if_neg hp]
        exact h1
      · exact Or.inr h1

theorem lookupDef_updateDefAt_cases (defs : Defs) (k2 : String) (g : Schema → Schema)
    (k : String) (e : Schema)
    (h : lookupDef (updateDefAt defs k2 g) k = some e) :
    (∃ e0, lookupDef defs k = some e0 ∧ e = g e0) ∨ lookupDef defs k = some e := by
  by_cases hk : (k2 == k) = true
  · have hk2 : k2 = k := by simpa using hk
    subst hk2
    rw [lookupDef_updateDefAt_self] at h
    cases h0 : lookupDef defs k2 with
    | none => rw [h0] at h; cases h
    | some e0 =>
      rw [h0] at h
      simp only [Option.map, Option.some.injEq] at h
      exact Or.inl ⟨e0, rfl, h.symm⟩
  · rw [lookupDef_updateDefAt_ne defs k2 g k hk] at h
    exact Or.inr h

/-- Every registry entry a builder run installs has type `"object"`. -/
theorem synthStep_entries_object (env : List Message) (fuel : Nat) :
    ∀ (t : SynthTask) (defs : Defs) (s : Schema) (d' : Defs),
      synthStep env fuel t defs = some (s, d') →
      (∀ k e, lookupDef defs k = some e → e.type = "object") →
      ∀ k e, lookupDef d' k = some e → e.type = "object" := by
  induction fuel with
  | zero => intro t defs s d' h; simp [synthStep] at h
  | succ fuel ih =>
    intro t defs s d' h hinv k e he
    cases t with
    | msg m =>
      simp only [synthStep] at h
      by_cases hkm : hasKey defs m.fullName = true
      · rw [if_pos hkm] at h
        simp only [Option.some.injEq, Prod.mk.injEq] at h
        rw [← h.2] at he
        exact hinv k e he
      · rw [if_neg hkm] at h
        simp only [Option.bind_eq_some, Option.some.injEq, Prod.mk.injEq] at h
        obtain ⟨s2, hs2, -, hd⟩ := h
        subst hd
        have hinv1 : ∀ k e, lookupDef (defs ++ [(m.fullName, initEntry m)]) k = some e →
            e.type = "object" := by
          intro k2 e2 he2
          rcases lookupDef_append_cases _ _ _ _ he2 with h1 | h1
          · exact hinv k2 e2 h1
          · rw [lookupDef_cons] at h1
            by_cases hp : (m.fullName == k2) = true
            · rw [if_pos hp] at h1
              simp only [Option.some.injEq] at h1
              rw [← h1]
              rfl
            · rw [if_neg hp] at h1
              cases h1
        rcases lookupDef_updateDefAt_cases _ _ _ _ _ he with ⟨e0, he0, hge⟩ | h1
        · rw [hge, applyOneofConstraints_type]
          exact ih _ _ _ _ hs2 hinv1 k e0 he0
        · exact ih _ _ _ _ hs2 hinv1 k e h1
    | flds key fs =>
      cases fs with
      | nil =>
        simp only [synthStep, Option.some.injEq, Prod.mk.injEq] at h
        rw [← h.2] at he
        exact hinv k e he
      | cons f rest =>
        simp only [synthStep] at h
        by_cases hig : getIgnore f.opts = true
        · rw [if_pos hig] at h
          exact ih _ _ _ _ h hinv k e he
        · rw [if_neg hig] at h
          cases hdep : depNameOf (fieldConfig env f) f.opts with
          | none =>
            rw [hdep] at h
            have hinv2 : ∀ k2 e2, lookupDef (setPropAt defs key (fieldConfig env f).fieldName
                (buildGeneralValue (fieldConfig env f) f.opts none)) k2 = some e2 →
                e2.type = "object" := by
              intro k2 e2 he2
              rw [setPropAt_eq_updateDefAt] at he2
              rcases lookupDef_updateDefAt_cases _ _ _ _ _ he2 with ⟨e0, he0, hge⟩ | h1
              · rw [hge, Schema.setProp_type]
                exact hinv k2 e0 he0
              · exact hinv k2 e2 h1
            exact ih _ _ _ _ h hinv2 k e he
          | some depName =>
            rw [hdep] at h
            simp only [Option.bind_eq_some] at h
            obtain ⟨depMsg, hdm, s2, hs2, h⟩ := h
            have hinvdd : ∀ k2 e2, lookupDef s2.2 k2 = some e2 → e2.type = "object" := by
              intro k2 e2 he2
              exact ih _ _ _ _ hs2 hinv k2 e2 he2
            have hinv3 : ∀ k2 e2, lookupDef (setPropAt s2.2 key (fieldConfig env f).fieldName
                (if isDirectMessageRef (fieldConfig env f) f.opts = true then s2.1
                 else buildGeneralValue (fieldConfig env f) f.opts (some s2.1))) k2 = some e2 →
                e2.type = "object" := by
              intro k2 e2 he2
              rw [setPropAt_eq_updateDefAt] at he2
              rcases lookupDef_updateDefAt_cases _ _ _ _ _ he2 with ⟨e0, he0, hge⟩ | h1
              · rw [hge, Schema.setProp_type]
                exact hinvdd k2 e0 he0
              · exact hinvdd k2 e2 h1
            exact ih _ _ _ _ h hinv3 k e he

/-- The computed property value of a singular, option-free message
field referencing message `m` is a pure reference to `m`'s name. -/
theorem fieldPropValue_direct_ref (env : List Message) (f : FieldD) (m : Message)
    (hopts : f.opts = none) (hk : f.kind = messageKind) (hl : f.isList = false)
    (hm : f.isMap = false) (hmsg : f.message = some m.fullName)
    (hlk : lookupMsg env m.fullName = some m) :
    fieldPropValue env f = some (refSchema m.fullName) := by
  simp [fieldPropValue, fieldConfig, getScalarSchemaConfig, getMessageSchemaConfig,
    depNameOf, isDirectMessageRef, hopts, hk, hl, hm, hmsg, hlk,
    SchemaFieldConfig.messageRef, SchemaFieldConfig.typeName, SchemaFieldConfig.nested]

/-! ## C9: idempotent re-synthesis -/

/-- **C9.** Calling the generated builder a second time on the registry
produced by a completed first call returns a pure `$ref` node and
returns the registry unchanged: no entry is added, removed or mutated. -/
theorem idempotent_resynthesis (env : List Message) (fuel fuel' : Nat) (m : Message)
    (defs0 : Defs) (r1 : Schema) (d1 : Defs)
    (h1 : synthStep env fuel (SynthTask.msg m) defs0 = some (r1, d1)) :
    synthStep env (fuel' + 1) (SynthTask.msg m) d1 = some (refSchema m.fullName, d1) := by
  have hreg := synthStep_msg_registered env fuel m defs0 r1 d1 h1
  simp [synthStep, hreg]

/-- Witness for C9: re-synthesizing the self-referential example
returns a reference and the unchanged registry. -/
theorem idempotent_resynthesis_witness :
    synthStep envC2 (3 + 1) (SynthTask.msg selfMsgC2) defsC2 =
      some (refSchema "pkg.Node", defsC2) :=
  idempotent_resynthesis envC2 5 3 selfMsgC2 [] (refSchema "pkg.Node") defsC2 (by rfl)

/-! ## C2: cycle-safe construction -/

/-- **C2.** The builder registers the type's (initially incomplete)
entry under its fully-qualified name before processing fields: a
request for an already-registered name returns a pure `$ref`
immediately, leaving the registry untouched; every successful run
leaves the name registered; every environment member synthesizes in
finite time; and a self-referential singular message field (without
options) comes out in the type's own registry entry as a `$ref` to its
own fully-qualified name. -/
theorem cycle_safe_construction :
    (∀ (env : List Message) (fuel : Nat) (m : Message) (defs : Defs),
       hasKey defs m.fullName = true →
       synthStep env (fuel + 1) (SynthTask.msg m) defs = some (refSchema m.fullName, defs)) ∧
    (∀ (env : List Message) (fuel : Nat) (m : Message) (defs : Defs) (s : Schema) (d' : Defs),
       synthStep env fuel (SynthTask.msg m) defs = some (s, d') →
       hasKey d' m.fullName = true) ∧
    (∀ (env : List Message) (m : Message), envResolves env = true → m ∈ env →
       ∀ defs, ∃ fuel r, synthStep env fuel (SynthTask.msg m) defs = some r) ∧
    (∀ (env : List Message) (fuel : Nat) (m : Message) (f : FieldD) (s : Schema) (d' : Defs),
       synthStep env fuel (SynthTask.msg m) [] = some (s, d') →
       f ∈ m.fields → (m.fields.map FieldD.name).Nodup →
       f.opts = none → f.kind = messageKind → f.isList = false → f.isMap = false →
       f.message = some m.fullName → lookupMsg env m.fullName = some m →
       ∃ e, lookupDef d' m.fullName = some e ∧
         lookupProp e f.name = some (refSchema m.fullName)) := by
  refine ⟨?_, ?_, ?_, ?_⟩
  · intro env fuel m defs hk
    simp [synthStep, hk]
  · intro env fuel m defs s d' h
    exact synthStep_msg_registered env fuel m defs s d' h
  · intro env m henv hm defs
    exact synthStep_msg_total env henv m hm defs
  · intro env fuel m f s d' h hf hnodup hopts hk hl hmp hmsg hlk
    have hentry := synthStep_msg_entry env fuel m [] s d' h rfl
    refine ⟨applyOneofConstraints m (applyFieldProps env m.fields (initEntry m)),
      hentry, ?_⟩
    have hprops : lookupProp (applyOneofConstraints m
        (applyFieldProps env m.fields (initEntry m))) f.name =
        lookupProp (applyFieldProps env m.fields (initEntry m)) f.name := by
      rw [lookupProp, applyOneofConstraints_properties, lookupProp]
    rw [hprops]
    have hfv := fieldPropValue_direct_ref env f m hopts hk hl hmp hmsg hlk
    apply lookupProp_applyFieldProps env m.fields (initEntry m) f.name
      (refSchema m.fullName) ⟨f, hf, by simp [hopts, getIgnore], rfl, hfv⟩
    intro g hg hgig hgn
    have hgf : g = f := List.inj_on_of_nodup_map hnodup hg hf hgn
    rw [hgf]
    exact hfv

/-- Witness for C2: the self-referential example's entry carries a
self-`$ref` under its `next` property. -/
theorem cycle_safe_construction_witness :
    ∃ e, lookupDef defsC2 "pkg.Node" = some e ∧
      lookupProp e "next" = some (refSchema "pkg.Node") :=
  cycle_safe_construction.2.2.2 envC2 5 selfMsgC2
    { baseField with name := "next", kind := messageKind, message := some "pkg.Node" }
    (refSchema "pkg.Node") defsC2 (by rfl) (by decide) (by decide) (by decide)
    (by decide) (by decide) (by decide) (by decide) (by rfl)

/-! ## C3: the ref-as-root protocol -/

/-- **C3.** A root schema request returns a fresh node whose `Ref` is
`#/$defs/<fully-qualified-name>` and whose `Defs` is the full registry;
the node is a pure reference (no type, properties, required list,
items, additionalProperties, propertyNames, oneOf or allOf of its own),
and it is never equal to the registry entry it names — that entry is
reachable only through the `Defs` map. -/
theorem ref_as_root_protocol (env : List Message) (fuel : Nat) (m : Message) (root : Schema)
    (h : jsonSchemaRoot env fuel m = some root) :
    ∃ d : Defs, synthStep env fuel (SynthTask.msg m) [] = some (refSchema m.fullName, d) ∧
      root = (refSchema m.fullName).setDefs d ∧
      root.ref = "#/$defs/" ++ m.fullName ∧ root.defs = d ∧
      root.type = "" ∧ root.properties = [] ∧ root.required = [] ∧
      root.items = none ∧ root.additionalProperties = none ∧
      root.propertyNames = none ∧ root.oneOf = [] ∧ root.allOf = [] ∧
      (∀ e, lookupDef d m.fullName = some e → e ≠ root) := by
  unfold jsonSchemaRoot at h
  cases hrun : synthStep env fuel (SynthTask.msg m) [] with
  | none => rw [hrun] at h; cases h
  | some p =>
    rw [hrun] at h
    obtain ⟨s, d⟩ := p
    have hs := synthStep_msg_ref env fuel m [] s d hrun
    subst hs
    simp only [Option.some.injEq] at h
    subst h
    refine ⟨d, rfl, rfl, rfl, rfl, rfl, rfl, rfl, rfl, rfl, rfl, rfl, rfl, ?_⟩
    intro e he heq
    have htype : e.type = "object" :=
      synthStep_entries_object env fuel _ _ _ _ hrun
        (by intro k e' he'; simp [lookupDef] at he') m.fullName e he
    rw [heq] at htype
    simp [refSchema, Schema.setDefs, Schema.type] at htype

/-- Witness for C3: the root returned for the self-referential example. -/
theorem ref_as_root_protocol_witness :
    ∃ d : Defs, synthStep envC2 5 (SynthTask.msg selfMsgC2) [] =
        some (refSchema "pkg.Node", d) ∧
      (refSchema "pkg.Node").setDefs defsC2 = (refSchema "pkg.Node").setDefs d ∧
      ((refSchema "pkg.Node").setDefs defsC2).ref = "#/$defs/" ++ "pkg.Node" ∧
      ((refSchema "pkg.Node").setDefs defsC2).defs = d ∧
      ((refSchema "pkg.Node").setDefs defsC2).type = "" ∧
      ((refSchema "pkg.Node").setDefs defsC2).properties = [] ∧
      ((refSchema "pkg.Node").setDefs defsC2).required = [] ∧
      ((refSchema "pkg.Node").setDefs defsC2).items = none ∧
      ((refSchema "pkg.Node").setDefs defsC2).additionalProperties = none ∧
      ((refSchema "pkg.Node").setDefs defsC2).propertyNames = none ∧
      ((refSchema "pkg.Node").setDefs defsC2).oneOf = [] ∧
      ((refSchema "pkg.Node").setDefs defsC2).allOf = [] ∧
      (∀ e, lookupDef d "pkg.Node" = some e →
        e ≠ (refSchema "pkg.Node").setDefs defsC2) :=
  ref_as_root_protocol envC2 5 selfMsgC2 ((refSchema "pkg.Node").setDefs defsC2) (by rfl)

theorem applyFieldProps_required (env : List Message) :
    ∀ (fs : List FieldD) (e : Schema),
      (applyFieldProps env fs e).required = e.required := by
  intro fs
  induction fs with
  | nil => intro e; rfl
  | cons f rest ih =>
    intro e
    rw [applyFieldProps_cons]
    by_cases hig : getIgnore f.opts = true
    · rw [if_pos hig]
      exact ih e
    · rw [if_neg hig]
      cases hfv : fieldPropValue env f with
      | none => exact ih e
      | some v => rw [ih (e.setProp (fieldConfig env f).fieldName v), Schema.setProp_required]

/-! ## C10: verbatim property names -/

/-- **C10.** `getFieldName` returns exactly the declared proto field
name (the `json_name` value in the descriptor is ignored); the
generated entry's property keys are exactly the non-ignored fields'
names in declaration order, its required list is the computed required
list, and two root requests for the same type give identical results. -/
theorem verbatim_property_names :
    (∀ f : FieldD, getFieldName f = f.name) ∧
    (∀ (f : FieldD) (s : String), getFieldName { f with jsonName := s } = getFieldName f) ∧
    (∀ (env : List Message) (fuel : Nat) (m : Message) (s : Schema) (d' : Defs),
       synthStep env fuel (SynthTask.msg m) [] = some (s, d') →
       (∀ f ∈ m.fields, fieldResolves env f = true) →
       (m.fields.map FieldD.name).Nodup →
       ∃ e, lookupDef d' m.fullName = some e ∧
         e.properties.map Prod.fst =
           (m.fields.filter (fun f => !(getIgnore f.opts))).map getFieldName ∧
         e.required = requiredFields m) ∧
    (∀ (env : List Message) (fuel : Nat) (m : Message) (r1 r2 : Schema),
       jsonSchemaRoot env fuel m = some r1 → jsonSchemaRoot env fuel m = some r2 →
       r1 = r2) := by
  refine ⟨fun f => rfl, fun f s => rfl, ?_, ?_⟩
  · intro env fuel m s d' h hres hnodup
    have hentry := synthStep_msg_entry env fuel m [] s d' h rfl
    refine ⟨_, hentry, ?_, ?_⟩
    · rw [show (applyOneofConstraints m (applyFieldProps env m.fields (initEntry m))).properties
          = (applyFieldProps env m.fields (initEntry m)).properties
          from applyOneofConstraints_properties m _]
      rw [propKeys_applyFieldProps env m.fields (initEntry m)
            (fun f hf hig => fieldPropValue_isSome_of_resolves env f (hres f hf) hig)
            (fun f hf => by simp [initEntry, Schema.properties]) hnodup]
      simp [initEntry, Schema.properties, getFieldName]
    · rw [show (applyOneofConstraints m (applyFieldProps env m.fields (initEntry m))).required
          = (applyFieldProps env m.fields (initEntry m)).required
          from applyOneofConstraints_required m _]
      rw [applyFieldProps_required]
      rfl
  · intro env fuel m r1 r2 h1 h2
    rw [h1] at h2
    exact Option.some.inj h2

/-- Witness for C10: the self-referential example's entry has exactly
property `next` and required list `["next"]`. -/
theorem verbatim_property_names_witness :
    ∃ e, lookupDef defsC2 "pkg.Node" = some e ∧
      e.properties.map Prod.fst =
        (selfMsgC2.fields.filter (fun f => !(getIgnore f.opts))).map getFieldName ∧
      e.required = requiredFields selfMsgC2 :=
  verbatim_property_names.2.2.1 envC2 5 selfMsgC2 (refSchema "pkg.Node") defsC2
    (by rfl) (by decide) (by decide)

/-! ## Oneof-group lemmas (toward C8) -/

theorem groupFieldsOf_cons (p : String × List String) (rest : List (String × List String))
    (n : String) :
    groupFieldsOf (p :: rest) n =
      if (p.1 == n) = true then p.2 else groupFieldsOf rest n := by
  cases hp : (p.1 == n) <;> simp [groupFieldsOf, List.find?_cons, hp]

theorem groupFieldsOf_map_append (gs : List (String × List String)) (n fn : String)
    (hpres : ((gs.find? (fun q => q.1 == n)).isSome) = true) :
    groupFieldsOf (gs.map (fun p => if p.1 == n then (p.1, p.2 ++ [fn]) else p)) n =
      groupFieldsOf gs n ++ [fn] := by
  induction gs with
  | nil => simp at hpres
  | cons p rest ih =>
    simp only [List.map_cons]
    cases hp : (p.1 == n) with
    | true =>
      simp only [hp, if_true]
      rw [groupFieldsOf_cons, groupFieldsOf_cons]
      simp [hp]
    | false =>
      simp only [hp, Bool.false_eq_true, if_false]
      rw [groupFieldsOf_cons, groupFieldsOf_cons]
      simp only [hp, Bool.false_eq_true, if_false]
      exact ih (by simpa [List.find?_cons, hp] using hpres)

theorem groupFieldsOf_map_ne (gs : List (String × List String)) (n fn x : String)
    (hx : (n == x) = false) :
    groupFieldsOf (gs.map (fun p => if p.1 == n then (p.1, p.2 ++ [fn]) else p)) x =
      groupFieldsOf gs x := by
  induction gs with
  | nil => rfl
  | cons p rest ih =>
    simp only [List.map_cons]
    cases hp : (p.1 == n) with
    | true =>
      have hp1 : p.1 = n := by simpa using hp
      have hpx : (p.1 == x) = false := by rw [hp1]; exact hx
      simp only [hp, if_true]
      rw [groupFieldsOf_cons, groupFieldsOf_cons]
      simp only [hpx, Bool.false_eq_true, if_false]
      exact ih
    | false =>
      simp only [hp, Bool.false_eq_true, if_false]
      rw [groupFieldsOf_cons, groupFieldsOf_cons]
      cases hpx : (p.1 == x) with
      | true => simp [hpx]
      | false => simp only [hpx, Bool.false_eq_true, if_false]; exact ih

theorem groupFieldsOf_append_single_ne (gs : List (String × List String)) (n fn x : String)
    (hx : (n == x) = false) :
    groupFieldsOf (gs ++ [(n, [fn])]) x = groupFieldsOf gs x := by
  induction gs with
  | nil =>
    simp only [List.nil_append]
    rw [groupFieldsOf_cons]
    simp [hx, groupFieldsOf]
  | cons p rest ih =>
    rw [List.cons_append, groupFieldsOf_cons, groupFieldsOf_cons]
    cases hp : (p.1 == x) with
    | true => simp [hp]
    | false =>
      simp only [hp, Bool.false_eq_true, if_false]
      exact ih

theorem groupFieldsOf_append_single_self (gs : List (String × List String)) (n fn : String)
    (habs : ((gs.find? (fun q => q.1 == n)).isSome) = false) :
    groupFieldsOf (gs ++ [(n, [fn])]) n = [fn] ∧ groupFieldsOf gs n = [] := by
  induction gs with
  | nil =>
    constructor
    · rw [List.nil_append, groupFieldsOf_cons]
      simp
    · rfl
  | cons p rest ih =>
    have hp : (p.1 == n) = false := by
      by_cases h : (p.1 == n) = true
      · simp [List.find?_cons, h] at habs
      · simpa using h
    have hrest : ((rest.find? (fun q => q.1 == n)).isSome) = false := by
      simpa [List.find?_cons, hp] using habs
    constructor
    · rw [List.cons_append, groupFieldsOf_cons]
      simp only [hp, Bool.false_eq_true, if_false]
      exact (ih hrest).1
    · rw [groupFieldsOf_cons]
      simp only [hp, Bool.false_eq_true, if_false]
      exact (ih hrest).2

theorem groupFieldsOf_addToGroup_self (gs : List (String × List String)) (n fn : String) :
    groupFieldsOf (addToGroup gs n fn) n = groupFieldsOf gs n ++ [fn] := by
  unfold addToGroup
  by_cases hpres : ((gs.find? (fun q => q.1 == n)).isSome) = true
  · rw [if_pos hpres]
    exact groupFieldsOf_map_append gs n fn hpres
  · rw [if_neg hpres]
    have h2 := groupFieldsOf_append_single_self gs n fn
      (by cases h : ((gs.find? (fun q => q.1 == n)).isSome) with
          | true => exact absurd h hpres
          | false => rfl)
    rw [h2.1, h2.2]
    rfl

theorem groupFieldsOf_addToGroup_ne (gs : List (String × List String)) (n fn x : String)
    (hx : (n == x) = false) :
    groupFieldsOf (addToGroup gs n fn) x = groupFieldsOf gs x := by
  unfold addToGroup
  by_cases hpres : ((gs.find? (fun q => q.1 == n)).isSome) = true
  · rw [if_pos hpres]
    exact groupFieldsOf_map_ne gs n fn x hx
  · rw [if_neg hpres]
    exact groupFieldsOf_append_single_ne gs n fn x hx

theorem oneofStep_neutral (gs : List (String × List String)) (f : FieldD)
    (h : getIgnore f.opts = true ∨ f.oneofName = none ∨ f.oneofSynthetic = true) :
    oneofStep gs f = gs := by
  unfold oneofStep
  by_cases hig : getIgnore f.opts = true
  · rw [if_pos hig]
  · rw [if_neg hig]
    rcases h with h | h | h
    · exact absurd h hig
    · rw [h]
    · cases hon : f.oneofName with
      | none => rfl
      | some n =>
        show (if f.oneofSynthetic = true then gs
              else addToGroup gs n (getFieldName f)) = gs
        rw [if_pos h]

/-- Fields that are ignored, outside any oneof, or in a synthetic oneof
contribute no group. -/
theorem oneofGroups_empty (m : Message)
    (h : ∀ f ∈ m.fields, getIgnore f.opts = true ∨ f.oneofName = none ∨
      f.oneofSynthetic = true) :
    oneofGroups m = [] := by
  unfold oneofGroups
  have haux : ∀ (fs : List FieldD) (acc : List (String × List String)),
      (∀ f ∈ fs, getIgnore f.opts = true ∨ f.oneofName = none ∨ f.oneofSynthetic = true) →
      fs.foldl oneofStep acc = acc := by
    intro fs
    induction fs with
    | nil => intro acc _; rfl
    | cons f rest ih =>
      intro acc hall
      rw [List.foldl_cons, oneofStep_neutral acc f (hall f (List.mem_cons_self f rest))]
      exact ih acc (fun g hg => hall g (List.mem_cons_of_mem f hg))
  exact haux m.fields [] h

/-- Membership in a collected oneof group characterized over the field
list. -/
theorem mem_groupFieldsOf_foldl :
    ∀ (fs : List FieldD) (acc : List (String × List String)) (n fn : String),
      fn ∈ groupFieldsOf (fs.foldl oneofStep acc) n ↔
        fn ∈ groupFieldsOf acc n ∨
          ∃ f ∈ fs, getIgnore f.opts = false ∧ f.oneofSynthetic = false ∧
            f.oneofName = some n ∧ getFieldName f = fn := by
  intro fs
  induction fs with
  | nil => intro acc n fn; simp
  | cons f rest ih =>
    intro acc n fn
    rw [List.foldl_cons, ih]
    by_cases hig : getIgnore f.opts = true
    · rw [oneofStep_neutral acc f (Or.inl hig)]
      simp [hig]
    · have hig2 : getIgnore f.opts = false := by simpa using hig
      cases hon : f.oneofName with
      | none =>
        rw [oneofStep_neutral acc f (Or.inr (Or.inl hon))]
        simp [hon]
      | some n2 =>
        by_cases hsyn : f.oneofSynthetic = true
        · rw [oneofStep_neutral acc f (Or.inr (Or.inr hsyn))]
          simp [hsyn]
        · have hsyn2 : f.oneofSynthetic = false := by simpa using hsyn
          have hstep : oneofStep acc f = addToGroup acc n2 (getFieldName f) := by
            unfold oneofStep
            rw [if_neg hig]
            show (match f.oneofName with
                  | some n3 => if f.oneofSynthetic = true then acc
                               else addToGroup acc n3 (getFieldName f)
                  | none => acc) = addToGroup acc n2 (getFieldName f)
            rw [hon]
            show (if f.oneofSynthetic = true then acc
                  else addToGroup acc n2 (getFieldName f)) = _
            rw [if_neg hsyn]
          rw [hstep]
          by_cases hnn : n2 = n
          · subst hnn
            rw [groupFieldsOf_addToGroup_self]
            simp only [List.mem_append, List.mem_cons, List.not_mem_nil, or_false]
            constructor
            · rintro ((hm | hm) | hrest)
              · exact Or.inl hm
              · exact Or.inr ⟨f, Or.inl rfl, hig2, hsyn2, hon, hm.symm⟩
              · obtain ⟨g, hg, hprops⟩ := hrest
                exact Or.inr ⟨g, Or.inr hg, hprops⟩
            · rintro (hm | ⟨g, hg | hg, hp1, hp2, hp3, hp4⟩)
              · exact Or.inl (Or.inl hm)
              · subst hg
                exact Or.inl (Or.inr hp4.symm)
              · exact Or.inr ⟨g, hg, hp1, hp2, hp3, hp4⟩
          · have hbe : (n2 == n) = false := by simpa using hnn
            rw [groupFieldsOf_addToGroup_ne acc n2 (getFieldName f) n hbe]
            simp only [List.mem_cons]
            constructor
            · rintro (hm | hrest)
              · exact Or.inl hm
              · obtain ⟨g, hg, hprops⟩ := hrest
                exact Or.inr ⟨g, Or.inr hg, hprops⟩
            · rintro (hm | ⟨g, hg | hg, hp1, hp2, hp3, hp4⟩)
              · exact Or.inl hm
              · subst hg
                rw [hon] at hp3
                exact absurd (Option.some.inj hp3) hnn
              · exact Or.inr ⟨g, hg, hp1, hp2, hp3, hp4⟩

/-- **C8.** Oneof constraint shape: fields sharing a non-synthetic oneof are
grouped by oneof name (a field name is in the group for `n` iff some
non-ignored, non-synthetic field of the message carries oneof name `n` and
that field name — so ignored fields and synthetic oneofs contribute no
group); with exactly one group the schema's `OneOf` is set to one
required-only sub-schema per member; with more than one group each group's
`OneOf` list is wrapped in a shared `AllOf`; with no contributing field the
schema is unchanged. -/
theorem oneof_constraint_shape :
    (∀ (m : Message) (n fn : String),
        fn ∈ groupFieldsOf (oneofGroups m) n ↔
          ∃ f ∈ m.fields, getIgnore f.opts = false ∧ f.oneofSynthetic = false ∧
            f.oneofName = some n ∧ getFieldName f = fn) ∧
    (∀ (m : Message) (s : Schema) (n : String),
        sortStrings ((oneofGroups m).map Prod.fst) = [n] →
          applyOneofConstraints m s =
            s.setOneOf ((groupFieldsOf (oneofGroups m) n).map requiredOnlySchema)) ∧
    (∀ (m : Message) (s : Schema) (n1 n2 : String) (ns : List String),
        sortStrings ((oneofGroups m).map Prod.fst) = n1 :: n2 :: ns →
          applyOneofConstraints m s =
            s.setAllOf ((n1 :: n2 :: ns).map
              (fun n => oneOfOnlySchema
                ((groupFieldsOf (oneofGroups m) n).map requiredOnlySchema)))) ∧
    (∀ (m : Message) (s : Schema),
        (∀ f ∈ m.fields, getIgnore f.opts = true ∨ f.oneofName = none ∨
          f.oneofSynthetic = true) →
          applyOneofConstraints m s = s) := by
  refine ⟨?_, ?_, ?_, ?_⟩
  · intro m n fn
    unfold oneofGroups
    rw [mem_groupFieldsOf_foldl]
    simp [groupFieldsOf]
  · intro m s n h
    unfold applyOneofConstraints
    dsimp only
    rw [h]
  · intro m s n1 n2 ns h
    unfold applyOneofConstraints
    dsimp only
    rw [h]
  · intro m s hall
    have h0 : oneofGroups m = [] := oneofGroups_empty m hall
    unfold applyOneofConstraints
    dsimp only
    rw [h0]
    rfl

/-- Witness for C8: `exampleRequiredMsg` has the single oneof group `d`
with members `e` and `f`, and its schema gets exactly that `OneOf`. -/
theorem oneof_constraint_shape_witness :
    applyOneofConstraints exampleRequiredMsg (initEntry exampleRequiredMsg) =
      (initEntry exampleRequiredMsg).setOneOf
        ((groupFieldsOf (oneofGroups exampleRequiredMsg) "d").map requiredOnlySchema) :=
  oneof_constraint_shape.2.1 exampleRequiredMsg (initEntry exampleRequiredMsg) "d" (by rfl)

/-- For a kind outside the closed set, `getKindTypeName` returns the
`unsupported type` error. -/
theorem getKindTypeName_error_outside (k : Int) (hk : k ∉ closedKinds) :
    getKindTypeName k = Except.error ("unsupported type: " ++ toString k) := by
  have hno : ∀ c ∈ closedKinds, ¬ k = c := fun c hc he => hk (he ▸ hc)
  have e1 : ¬ k = boolKind := hno boolKind (by decide)
  have e2 : ¬ k = enumKind := hno enumKind (by decide)
  have e3 : ¬ k = int32Kind := hno int32Kind (by decide)
  have e4 : ¬ k = sint32Kind := hno sint32Kind (by decide)
  have e5 : ¬ k = uint32Kind := hno uint32Kind (by decide)
  have e6 : ¬ k = fixed32Kind := hno fixed32Kind (by decide)
  have e7 : ¬ k = sfixed32Kind := hno sfixed32Kind (by decide)
  have e8 : ¬ k = int64Kind := hno int64Kind (by decide)
  have e9 : ¬ k = sint64Kind := hno sint64Kind (by decide)
  have e10 : ¬ k = uint64Kind := hno uint64Kind (by decide)
  have e11 : ¬ k = fixed64Kind := hno fixed64Kind (by decide)
  have e12 : ¬ k = sfixed64Kind := hno sfixed64Kind (by decide)
  have e13 : ¬ k = floatKind := hno floatKind (by decide)
  have e14 : ¬ k = doubleKind := hno doubleKind (by decide)
  have e15 : ¬ k = stringKind := hno stringKind (by decide)
  have e16 : ¬ k = bytesKind := hno bytesKind (by decide)
  have e17 : ¬ k = messageKind := hno messageKind (by decide)
  have e18 : ¬ k = groupKind := hno groupKind (by decide)
  simp only [getKindTypeName, e1, e2, e3, e4, e5, e6, e7, e8, e9, e10, e11,
    e12, e13, e14, e15, e16, e17, e18, or_self, false_or, if_false]

/-- **C5 counterexample.** Kind 99 is outside the closed set and the type
mapper reports `unsupported type: 99` for it; yet synthesizing the message
`pkg.Bad`, whose only field has kind 99, succeeds (no abort: the builders
discard the error), registers an entry, and emits a property for the bad
field whose schema simply has an empty type — generation silently
continued past the unsupported field. -/
theorem unsupported_kind_no_abort_cex :
    (99 : Int) ∉ closedKinds ∧
    getKindTypeName 99 = Except.error "unsupported type: 99" ∧
    badFieldC5.kind = 99 ∧
    synthStep envC5 3 (SynthTask.msg badMsgC5) [] =
      some (refSchema "pkg.Bad", [("pkg.Bad", badEntryC5)]) ∧
    lookupProp badEntryC5 "weird" = some weirdPropC5 ∧
    weirdPropC5.type = "" := by
  refine ⟨by decide, rfl, rfl, ?_, rfl, rfl⟩
  rfl

/-- **C5 (amended).** For every kind outside the closed set the type
mapper does return an error, but the schema-config builders discard it
(Go: `kindTypeName, _ := sg.getKindTypeName(...)`), substituting the
empty type name: the scalar config of any field of such a kind has an
empty `typeName`, and synthesis of every message in a resolvable
environment still completes successfully — it is never aborted by an
unsupported field kind. -/
theorem unsupported_kind_silently_continues (k : Int) (hk : k ∉ closedKinds) :
    getKindTypeName k = Except.error ("unsupported type: " ++ toString k) ∧
    kindTypeNameOrEmpty k = "" ∧
    (∀ (f : FieldD) (t d : String), f.kind = k →
        (getScalarSchemaConfig f t d).typeName = "") ∧
    (∀ env, envResolves env = true → ∀ m ∈ env, ∀ defs,
        ∃ fuel r, synthStep env fuel (SynthTask.msg m) defs = some r) := by
  have hge := getKindTypeName_error_outside k hk
  have hempty : kindTypeNameOrEmpty k = "" := by
    unfold kindTypeNameOrEmpty
    rw [hge]
  refine ⟨hge, hempty, ?_, ?_⟩
  · intro f t d hfk
    subst hfk
    have e17 : ¬ f.kind = messageKind := fun he => hk (he ▸ (by decide))
    have e2 : ¬ f.kind = enumKind := fun he => hk (he ▸ (by decide))
    have e16 : ¬ f.kind = bytesKind := fun he => hk (he ▸ (by decide))
    unfold getScalarSchemaConfig
    dsimp only
    rw [if_neg e17, if_neg e2, if_neg e16]
    exact hempty
  · intro env henv m hm defs
    exact synthStep_msg_total env henv m hm defs

/-- Witness for the amended C5 at the concrete kind 99. -/
theorem unsupported_kind_silently_continues_witness :
    kindTypeNameOrEmpty 99 = "" ∧
    (getScalarSchemaConfig badFieldC5 "" "").typeName = "" ∧
    ∃ fuel r, synthStep envC5 fuel (SynthTask.msg badMsgC5) [] = some r :=
  ⟨(unsupported_kind_silently_continues 99 (by decide)).2.1,
   (unsupported_kind_silently_continues 99 (by decide)).2.2.1 badFieldC5 "" "" rfl,
   (unsupported_kind_silently_continues 99 (by decide)).2.2.2 envC5 (by rfl)
     badMsgC5 (List.mem_cons_self badMsgC5 []) []⟩
